import Mathlib

/-!
The script `scripts/write-api-docs.js`.

A shallow embedding of the functions of `scripts/write-api-docs.js` that query
syntax trees (`match`, `find`, `findVariables`, `findModuleExports`,
`findExportedFunction`, `findReturnedData`, `findProperty`), evaluate expressions
(`marshallValue`, `parseVariables`) and build the records of the document
(`marshallAuthentication`, `marshallErrors`, `parseErrors`, `getSlug`), over a
universal type of JavaScript values, followed by the properties of these
functions.

Modelling conventions.

* `Val` is the universe of JavaScript values that a syntax tree produced by the
  parser is made of: `undefined`, `null`, booleans, numbers, strings, plain
  objects and arrays.  Numbers are integers (fractional literals, `NaN` and the
  infinities are outside the model), and the values of regular-expression
  literals are outside the model.
* An object is the list of its own enumerable properties in `Object.keys`
  order.  The keys of a JavaScript object are pairwise distinct; reading a
  property returns the first entry with that key.
* A function that can throw returns `Option`, where `none` stands for a
  `TypeError` thrown by the runtime, or `Throws`, which tells the error of `fail`,
  with its message, from an error of the runtime.
* The method `sort` is the stable sort that the language specifies for a
  consistent comparison function, and the method `toLowerCase` is a parameter.
-/

namespace WriteApiDocs

/-- JavaScript values. -/
inductive Val where
  | undef
  | null
  | bool (b : Bool)
  | num (n : Int)
  | str (s : String)
  | obj (props : List (String × Val))
  | arr (elems : List Val)

namespace Val

instance : Inhabited Val := ⟨undef⟩

mutual
/-- Structural equality of values. -/
def beq : Val → Val → Bool
  | undef, undef => true
  | null, null => true
  | bool a, bool b => a == b
  | num a, num b => a == b
  | str a, str b => a == b
  | obj ps, obj qs => beqProps ps qs
  | arr es, arr fs => beqElems es fs
  | _, _ => false
/-- Structural equality of property lists. -/
def beqProps : List (String × Val) → List (String × Val) → Bool
  | [], [] => true
  | (k, v) :: ps, (l, w) :: qs => k == l && beq v w && beqProps ps qs
  | _, _ => false
/-- Structural equality of element lists. -/
def beqElems : List Val → List Val → Bool
  | [], [] => true
  | v :: es, w :: fs => beq v w && beqElems es fs
  | _, _ => false
end

end Val

open Val

/-! ## JavaScript primitives used by the script -/

/-- The test `node && typeof node === 'object'` of `isObject`: true exactly for
objects and arrays. -/
def isObject : Val → Bool
  | obj _ => true
  | arr _ => true
  | _ => false

/-- The test `Array.isArray(node)`. -/
def isArray : Val → Bool
  | arr _ => true
  | _ => false

/-- The operator `===`.  Scalars are compared by type and value.  Two objects
are compared structurally: the script compares two objects only in
`marshallValue`, where both are the value of the same syntax-tree field. -/
def strictEq (a b : Val) : Bool := Val.beq a b

/-- The values `Object.keys(node).map(key => node[key])` of a field-bearing
value, in key order: the property values of an object, the elements of an
array. -/
def fieldValues : Val → List Val
  | obj ps => ps.map Prod.snd
  | arr es => es
  | _ => []

/-! ## `match` and `find` -/

mutual
/-- The function `match (node, criteria)`.  (Lean reserves the word `match`.) -/
def match_ : Val → Val → Bool
  | obj ps, criteria =>
    if isObject criteria then (fieldValues criteria).all (fun c => someProp ps c) else false
  | arr es, criteria =>
    if isObject criteria then (fieldValues criteria).all (fun c => someElem es c) else false
  | node, criteria => strictEq node criteria
/-- The loop `Object.keys(node).some(nodeKey => match(node[nodeKey], c))` over
the properties of an object `node` (see `someProp_eq_keys`). -/
def someProp : List (String × Val) → Val → Bool
  | [], _ => false
  | (_, v) :: ps, c => match_ v c || someProp ps c
/-- The loop `Object.keys(node).some(nodeKey => match(node[nodeKey], c))` over
the elements of an array `node`. -/
def someElem : List Val → Val → Bool
  | [], _ => false
  | v :: es, c => match_ v c || someElem es c
end

/-- The `options` argument of `find`; an absent argument is `{}`. -/
structure Options where
  array : Bool := false
  recursive : Bool := false
  deriving DecidableEq, Repr

mutual
/-- The function `find (node, criteria, options)`. -/
def find : Val → Val → Options → List Val
  | arr es, criteria, options =>
    if match_ (arr es) criteria then [arr es]
    else if options.array then findElems es criteria options
    else if options.recursive then findElems es criteria options
    else []
  | obj ps, criteria, options =>
    if match_ (obj ps) criteria then [obj ps]
    else if options.recursive then findProps ps criteria options
    else []
  | node, criteria, _ => if match_ node criteria then [node] else []
/-- The loop `node.reduce((results, property) => results.concat(find(property,
criteria, options)), [])` over the elements of an array (also the loop over
`Object.keys` of an array, whose keys are its indices). -/
def findElems : List Val → Val → Options → List Val
  | [], _, _ => []
  | v :: es, c, o => find v c o ++ findElems es c o
/-- The loop `Object.keys(node).reduce((results, key) =>
results.concat(find(node[key], criteria, options)), [])` over the properties
of an object (see `findProps_eq_keys`). -/
def findProps : List (String × Val) → Val → Options → List Val
  | [], _, _ => []
  | (_, v) :: ps, c, o => find v c o ++ findProps ps c o
end

/-- The function `findVariables (node)`. -/
def findVariables (node : Val) : List Val :=
  find node (obj [("type", str "VariableDeclaration")]) { array := true }

/-! ## Property access, truthiness and string conversion -/

/-- Reading a named property `node.k`, for the property names the script reads
from syntax-tree values (`type`, `name`, `value`, `callee`, ...; not `length`,
an index or an inherited member).  Reading a property of `undefined` or `null`
throws; an absent property, and any such property of a boolean, number, string
or array, is `undefined`. -/
def getProp : Val → String → Option Val
  | undef, _ => none
  | null, _ => none
  | obj ps, k => some ((ps.lookup k).getD undef)
  | _, _ => some undef

/-- Truthiness of a value, as tested by `if (v)` and `v || w`. -/
def truthy : Val → Bool
  | undef => false
  | null => false
  | .bool b => b
  | num n => n != 0
  | str s => s != ""
  | _ => true

mutual
/-- String conversion of a value, as performed by a template literal and by
`+=` with a string operand. -/
def toStr : Val → String
  | undef => "undefined"
  | null => "null"
  | .bool b => if b then "true" else "false"
  | num n => toString n
  | str s => s
  | obj _ => "[object Object]"
  | arr es => ",".intercalate (toStrElems es)
/-- The texts that `Array.prototype.join` gives to the elements of an array:
`undefined` and `null` become the empty string. -/
def toStrElems : List Val → List String
  | [] => []
  | v :: es => (match v with | undef => "" | null => "" | _ => toStr v) :: toStrElems es
end

/-- The method `xs.join(sep)`. -/
def join (xs : List Val) (sep : String) : String := sep.intercalate (toStrElems xs)

/-! ## Maps -/

/-- A `Map`: its entries in insertion order. -/
abbrev Env := List (Val × Val)

/-- The constant `EMPTY_MAP`. -/
abbrev EMPTY_MAP : Env := []

/-- Equality of `Map` keys.  Scalars are compared by type and value; an object
key is equal only to itself, and no two syntax-tree fields hold the same
object, so object keys are never equal. -/
def sameValueZero (a b : Val) : Bool := !isObject a && strictEq a b

/-- The entry of `key`, if the map has one. -/
def mapFind (m : Env) (key : Val) : Option Val :=
  (m.find? (fun e => sameValueZero e.1 key)).map Prod.snd

/-- The method `m.get(key)`. -/
def mapGet (m : Env) (key : Val) : Val := (mapFind m key).getD undef

/-- The method `m.has(key)`. -/
def mapHas (m : Env) (key : Val) : Bool := (mapFind m key).isSome

/-- The method `m.set(key, value)`: an existing entry keeps its place and gets
the new value, a new entry goes last. -/
def mapSet : Env → Val → Val → Env
  | [], key, value => [(key, value)]
  | (k, v) :: m, key, value =>
    if sameValueZero k key then (k, value) :: m else (k, v) :: mapSet m key value

/-! ## `marshallValue` -/

mutual
/-- A size measure on values, for the recursion of `marshallValue`. -/
def Val.size : Val → Nat
  | obj ps => 1 + sizeProps ps
  | arr es => 1 + sizeElems es
  | undef => 0
  | _ => 1
/-- Size of a property list. -/
def sizeProps : List (String × Val) → Nat
  | [] => 0
  | (_, v) :: ps => 1 + v.size + sizeProps ps
/-- Size of an element list. -/
def sizeElems : List Val → Nat
  | [] => 0
  | v :: es => 1 + v.size + sizeElems es
end

theorem lookup_size {ps : List (String × Val)} {k : String} {v : Val}
    (h : ps.lookup k = some v) : v.size < 1 + sizeProps ps := by
  induction ps with
  | nil => simp at h
  | cons p ps ih =>
    obtain ⟨k', w⟩ := p
    simp only [List.lookup] at h
    split at h
    · simp at h; subst h; simp [sizeProps]; omega
    · have := ih h; simp [sizeProps]; omega

theorem getProp_size {node v : Val} {k : String} (h : getProp node k = some v) :
    v.size < node.size := by
  cases node with
  | obj ps =>
    cases hl : ps.lookup k with
    | none => simp [getProp, hl] at h; subst h; simp [Val.size]
    | some w => simp [getProp, hl] at h; subst h; simpa [Val.size] using lookup_size hl
  | undef => simp [getProp] at h
  | null => simp [getProp] at h
  | _ => simp [getProp] at h; subst h; simp [Val.size]

theorem mem_size {es : List Val} {v : Val} (h : v ∈ es) : v.size < 1 + sizeElems es := by
  induction es with
  | nil => simp at h
  | cons e es ih =>
    simp only [sizeElems]
    rcases List.mem_cons.1 h with h | h
    · subst h; omega
    · have := ih h; omega

theorem getProp_arr_size {node v : Val} {es : List Val} {k : String}
    (h : getProp node k = some (arr es)) (hv : v ∈ es) : v.size < node.size := by
  have h1 := getProp_size h
  have h2 := mem_size hv
  simp only [Val.size] at h1
  omega

/-- The results of a `map` whose callback can throw: the list of the results,
or `none` when a call threw. -/
def allSome : List (Option Val) → Option (List Val)
  | [] => some []
  | none :: _ => none
  | some v :: xs => (allSome xs).map (v :: ·)

/-- The function `marshallValue (node, variables)`.  A `switch` without a
matching `case` falls out of the function, which then returns `undefined`.
Calling `map` on a value that is not an array throws.  In the
`CallExpression` case an `arguments` field that is not an array has no result
in the model (a syntax tree always holds an array there). -/
def marshallValue (node : Val) (vars : Env) : Option Val :=
  match getProp node "type" with
  | none => none
  | some (str "Literal") => getProp node "value"
  | some (str "Identifier") =>
    match getProp node "name" with
    | none => none
    | some name =>
      if truthy (mapGet vars name) then some (mapGet vars name) else some name
  | some (str "CallExpression") =>
    match hc : getProp node "callee" with
    | none => none
    | some callee =>
      match marshallValue callee EMPTY_MAP with
      | none => none
      | some result =>
        match ha : getProp node "arguments" with
        | some (arr args) =>
          if args.length > 0 then
            match allSome (args.attach.map (fun argument => marshallValue argument.1 vars)) with
            | none => none
            | some vs => some (str (toStr result ++ "(" ++ join vs ", " ++ ")"))
          else some result
        | _ => none
  | some (str "MemberExpression") =>
    match hp : getProp node "property" with
    | none => none
    | some property =>
      match marshallValue property EMPTY_MAP, marshallValue property vars with
      | some unmapped, some mapped =>
        if !(strictEq mapped unmapped) then some mapped
        else
          match ho : getProp node "object" with
          | none => none
          | some object =>
            match marshallValue object EMPTY_MAP with
            | none => none
            | some o => some (str (toStr o ++ "." ++ toStr unmapped))
      | _, _ => none
  | some (str "ObjectExpression") =>
    match hps : getProp node "properties" with
    | some (arr props) =>
      match allSome (props.attach.map (fun property =>
          match getProp property.1 "key" with
          | none => none
          | some key =>
            match getProp key "name" with
            | none => none
            | some name =>
              match hv : getProp property.1 "value" with
              | none => none
              | some value =>
                match marshallValue value vars with
                | none => none
                | some v => some (str (toStr name ++ ": " ++ toStr v)))) with
      | none => none
      | some properties => some (str ("\x7b " ++ join properties ", " ++ " \x7d"))
    | _ => none
  | some _ => some undef
termination_by node.size
decreasing_by
  all_goals simp_wf
  · exact getProp_size hc
  · exact getProp_arr_size ha argument.2
  · exact getProp_size hp
  · exact getProp_size hp
  · exact getProp_size ho
  · exact Nat.lt_trans (getProp_size hv) (getProp_arr_size hps property.2)

/-- The callback of `node.properties.map` in the `ObjectExpression` case of
`marshallValue`: the text `key.name: value` of one property. -/
def propertyText (vars : Env) (property : Val) : Option Val :=
  match getProp property "key" with
  | none => none
  | some key =>
    match getProp key "name" with
    | none => none
    | some name =>
      match getProp property "value" with
      | none => none
      | some value =>
        match marshallValue value vars with
        | none => none
        | some v => some (str (toStr name ++ ": " ++ toStr v))

/-! ## `parseVariables` -/

/-- The callback of `variable.declarations.forEach` in `parseVariables`. -/
def parseDeclaration (map : Env) (declaration : Val) : Option Env :=
  match getProp declaration "init" with
  | none => none
  | some init =>
    if truthy init then
      match marshallValue init EMPTY_MAP with
      | none => none
      | some value =>
        if truthy value then
          match getProp declaration "id" with
          | none => none
          | some id =>
            match getProp id "name" with
            | none => none
            | some name => some (mapSet map name value)
        else some map
    else some map

/-- The callback of `reduce` in `parseVariables`.  Calling `forEach` on a
value that is not an array throws. -/
def parseVariable (map : Env) (variable_ : Val) : Option Env :=
  match getProp variable_ "declarations" with
  | some (arr declarations) => declarations.foldlM parseDeclaration map
  | _ => none

/-- The function `parseVariables (node)`. -/
def parseVariables (node : Val) : Option Env :=
  (findVariables node).foldlM parseVariable []

/-! ## Syntax-tree nodes -/

/-- An `Identifier` node. -/
def identifier (name : String) : Val :=
  obj [("type", str "Identifier"), ("name", str name)]

/-- A `Literal` node. -/
def literal (value : Val) : Val :=
  obj [("type", str "Literal"), ("value", value)]

/-- A `MemberExpression` node `object.property`. -/
def memberExpression (object property : Val) : Val :=
  obj [("type", str "MemberExpression"), ("object", object), ("property", property),
    ("computed", .bool false)]

/-- A `CallExpression` node. -/
def callExpression (callee : Val) (arguments : List Val) : Val :=
  obj [("type", str "CallExpression"), ("callee", callee), ("arguments", arr arguments)]

/-- A `Property` node of an object literal. -/
def property (key value : Val) : Val :=
  obj [("type", str "Property"), ("key", key), ("value", value), ("kind", str "init")]

/-- An `ObjectExpression` node. -/
def objectExpression (properties : List Val) : Val :=
  obj [("type", str "ObjectExpression"), ("properties", arr properties)]

/-- A `VariableDeclarator` node; a declarator without initializer has
`init: null`. -/
def variableDeclarator (id init : Val) : Val :=
  obj [("type", str "VariableDeclarator"), ("id", id), ("init", init)]

/-- A `VariableDeclaration` node. -/
def variableDeclaration (declarations : List Val) : Val :=
  obj [("type", str "VariableDeclaration"), ("declarations", arr declarations),
    ("kind", str "const")]

/-- The member access `obj.y`. -/
def objDotY : Val := memberExpression (identifier "obj") (identifier "y")

/-- The call `f(a, y)`. -/
def callFAY : Val := callExpression (identifier "f") [identifier "a", identifier "y"]

/-- The object literal `{ y: y, k: 'v', 'a-b': y }`, whose last key is quoted:
the key is a `Literal` node, which has no field `name`. -/
def objectYK : Val :=
  objectExpression [property (identifier "y") (identifier "y"),
    property (identifier "k") (literal (str "v")),
    property (literal (str "a-b")) (identifier "y")]

/-- The object literal `{ 'a-b': 1 }`, whose key is quoted. -/
def objectQuotedKey : Val :=
  objectExpression [property (literal (str "a-b")) (literal (num 1))]

/-- The value `node` is an `Identifier` node with the given name (it may have
further fields). -/
def IsIdentifier (node : Val) (name : String) : Prop :=
  getProp node "type" = some (str "Identifier") ∧ getProp node "name" = some (str name)

/-- The value `node` is a `MemberExpression` node with the given object and
property. -/
def IsMemberExpression (node object property : Val) : Prop :=
  getProp node "type" = some (str "MemberExpression") ∧
    getProp node "object" = some object ∧ getProp node "property" = some property

/-- The value `node` is a `CallExpression` node with the given callee and
arguments. -/
def IsCallExpression (node callee : Val) (arguments : List Val) : Prop :=
  getProp node "type" = some (str "CallExpression") ∧
    getProp node "callee" = some callee ∧ getProp node "arguments" = some (arr arguments)

/-- The value `node` is an `ObjectExpression` node with the given properties. -/
def IsObjectExpression (node : Val) (properties : List Val) : Prop :=
  getProp node "type" = some (str "ObjectExpression") ∧
    getProp node "properties" = some (arr properties)

/-- The value `node` is a property of an object literal whose key holds `name`
in its field `name` (`undefined` when the key has no such field) and whose value
evaluates to `r` under `vars`. -/
def PropertyYields (vars : Env) (node : Val) (name : Val) (r : Val) : Prop :=
  ∃ key value, getProp node "key" = some key ∧ getProp key "name" = some name ∧
    getProp node "value" = some value ∧ marshallValue value vars = some r

/-- The list `ds` of declarator nodes declares, in order, the names and values
`bs`: a declarator without initializer (`init` is `null` or absent) declares
nothing, a declarator with an initializer declares the name of its `id` with
the value of the initializer under the empty environment. -/
inductive Declares : List Val → List (String × Val) → Prop
  | nil : Declares [] []
  | skip {d init : Val} {ds : List Val} {bs : List (String × Val)} :
      getProp d "init" = some init → truthy init = false →
      Declares ds bs → Declares (d :: ds) bs
  | init {d init id v : Val} {x : String} {ds : List Val} {bs : List (String × Val)} :
      getProp d "init" = some init → truthy init = true →
      marshallValue init EMPTY_MAP = some v →
      getProp d "id" = some id → getProp id "name" = some (str x) →
      Declares ds bs → Declares (d :: ds) ((x, v) :: bs)

/-- The statement list `body` declares at its top level, in order, the names
and values `bs`: a statement is an object that either matches the pattern of
`findVariables` and holds a list of declarators, or does not match it. -/
inductive TopLevel : List Val → List (String × Val) → Prop
  | nil : TopLevel [] []
  | other {s : Val} {ss : List Val} {bs : List (String × Val)} :
      isObject s = true → isArray s = false →
      match_ s (obj [("type", str "VariableDeclaration")]) = false →
      TopLevel ss bs → TopLevel (s :: ss) bs
  | declaration {s : Val} {ds : List Val} {bs₁ : List (String × Val)} {ss : List Val}
      {bs₂ : List (String × Val)} :
      getProp s "type" = some (str "VariableDeclaration") →
      getProp s "declarations" = some (arr ds) →
      Declares ds bs₁ → TopLevel ss bs₂ → TopLevel (s :: ss) (bs₁ ++ bs₂)

/-- The map obtained from `map` by setting, in order, every name of `bs` whose
value is truthy. -/
def bindAll (map : Env) (bs : List (String × Val)) : Env :=
  bs.foldl (fun m b => if truthy b.2 then mapSet m (str b.1) b.2 else m) map

/-- The truthy value that the last entry of `bs` for the name `x` with a truthy
value gives to `x`, if there is such an entry. -/
def lastBinding : List (String × Val) → String → Option Val
  | [], _ => none
  | (y, v) :: bs, x =>
    match lastBinding bs x with
    | some w => some w
    | none => if y = x ∧ truthy v = true then some v else none

/-- The statements `const x = 0`. -/
def constXZero : List Val :=
  [variableDeclaration [variableDeclarator (identifier "x") (literal (num 0))]]

/-- The statements `const x = 'a', y; 'use strict'; const x = 'b'`. -/
def constXTwice : List Val :=
  [variableDeclaration [variableDeclarator (identifier "x") (literal (str "a")),
      variableDeclarator (identifier "y") null],
    obj [("type", str "ExpressionStatement"), ("expression", literal (str "use strict")),
      ("directive", str "use strict")],
    variableDeclaration [variableDeclarator (identifier "x") (literal (str "b"))]]

/-- The fields of a field-bearing value with their names, in `Object.keys`
order: the properties of an object, the elements of an array under their
indices. -/
def namedFields : Val → List (String × Val)
  | obj ps => ps
  | arr es => es.enum.map (fun ie => (toString ie.1, ie.2))
  | _ => []

/-- Every field of `pattern` matches the field of `node` that has the same
name. -/
def SameNameMatch (node pattern : Val) : Prop :=
  ∀ p ∈ namedFields pattern,
    ∃ n, (namedFields node).lookup p.1 = some n ∧ match_ n p.2 = true

/-- The reference definition of `match`, as a condition on a function `m` at one
node and pattern: when the node is not field-bearing the result is true exactly
when node and pattern are strictly equal; when the node is field-bearing and
the pattern is not, the result is false; when both are field-bearing the result
is true exactly when every field value of the pattern is matched, by `m`, by at
least one field value of the node. -/
def MatchReference (m : Val → Val → Bool) (node pattern : Val) : Prop :=
  (isObject node = false → (m node pattern = true ↔ node = pattern)) ∧
  (isObject node = true → isObject pattern = false → m node pattern = false) ∧
  (isObject node = true → isObject pattern = true →
    (m node pattern = true ↔
      ∀ p ∈ fieldValues pattern, ∃ n ∈ fieldValues node, m n p = true))

/-! ## `marshallAuthentication` -/

/-- The test `/^pre/.test(token)` of a regular expression that is anchored at the
start of the string and spells the literal text `pre`. -/
def startsWith (token pre : String) : Bool := pre.data.isPrefixOf token.data

/-- The function `marshallToken (token)`, with the tests of
`SESSION_TOKEN_STRATEGY` and `KEY_FETCH_TOKEN_STRATEGY`. -/
def marshallToken (token : String) : String :=
  if startsWith token "sessionToken" then "sessionToken"
  else if startsWith token "keyFetchToken" then "keyFetchToken"
  else token

/-- The function `uncamel (string)`: every letter `A` to `Z` is replaced by a
space and the lower-case letter. -/
def uncamel (string : String) : String :=
  String.mk (string.data.flatMap (fun uppercase =>
    if uppercase.isUpper then [' ', uppercase.toLower] else [uppercase]))

/-- The loop `reduce((deduped, token) => ..., [])` of `marshallAuthentication`: a
token is pushed when `deduped.indexOf(token) === -1`. -/
def dedupe (tokens : List String) : List String :=
  tokens.foldl (fun deduped token =>
    if deduped.contains token then deduped else deduped ++ [token]) []

/-- Insertion of `x` into a list sorted by `compare`: before the first element
that `x` does not come after. -/
def insertSorted {α : Type} (compare : α → α → Int) (x : α) : List α → List α
  | [] => [x]
  | y :: ys => if compare x y ≤ 0 then x :: y :: ys else y :: insertSorted compare x ys

/-- The method `xs.sort(compare)`, as the language specifies it for a consistent
comparison function: the elements in ascending order of `compare`, elements
that compare equal in their original order. -/
def sortWith {α : Type} (compare : α → α → Int) : List α → List α
  | [] => []
  | x :: xs => insertSorted compare x (sortWith compare xs)

/-- The comparison function of `tokens.sort` in `marshallAuthentication`. -/
def oauthFirst (lhs rhs : String) : Int :=
  if lhs = "oauthToken" then -1 else if rhs = "oauthToken" then 1 else 0

/-- The callback of the `reduce` that builds the summary. -/
def summaryStep (summary : String) (token : String) (index : Nat) : String :=
  if token = "oauthToken" then summary ++ "authenticated with OAuth bearer token"
  else summary ++
    ((if index = 0 then "" else ", or ") ++ "HAWK-authenticated with " ++ uncamel token)

/-- The loop `xs.reduce((summary, token, index) => ..., init)`, from the index
`index` on. -/
def reduceSummary : List String → Nat → String → String
  | [], _, summary => summary
  | token :: tokens, index, summary =>
    reduceSummary tokens (index + 1) (summaryStep summary token index)

/-- The argument of `marshallAuthentication`, as `findRouteAuthentication` builds
it. -/
structure Authentication where
  optional : Bool
  tokens : List String
  deriving DecidableEq, Repr

/-- The record that `marshallAuthentication` returns. -/
structure AuthenticationDoc where
  emojis : String
  token : String
  summary : String
  deriving DecidableEq, Repr

/-- The function `marshallAuthentication (authentication)`; `none` is
`undefined`.  The field `token` is computed before `sort` reorders `tokens`. -/
def marshallAuthentication (authentication : Option Authentication) :
    Option AuthenticationDoc :=
  match authentication with
  | none => none
  | some authentication =>
    let tokens := dedupe (authentication.tokens.map marshallToken)
    some {
      emojis := ":lock:" ++ (if authentication.optional then ":question:" else "")
      token := ", ".intercalate tokens
      summary := reduceSummary (sortWith oauthFirst tokens) 0
        (if authentication.optional then "Optionally " else "") }

/-! ## Failures and type assertions -/

/-- An exception: the one that `fail` throws, with its message, or one that the
runtime throws (reading a property of `undefined` or `null`, calling a method
that a value does not have). -/
inductive JsError where
  | failure (message : String)
  | runtime
  deriving DecidableEq, Repr

/-- The result of a function that can throw. -/
abbrev Throws (α : Type) := Except JsError α

/-- The result of a step that the model writes with `Option`. -/
def liftThrow {α : Type} : Option α → Throws α
  | some a => .ok a
  | none => .error .runtime

/-- The message that `fail (message, filePath, lineNumber)` builds. -/
def failMessage (message filePath : String) (lineNumber : Val) : String :=
  if filePath != "" then
    "Error parsing \"" ++ filePath ++ "\"" ++
      (if truthy lineNumber then " at line " ++ toStr lineNumber else "") ++ ":\n" ++ message
  else message

/-- The function `fail (message, filePath, lineNumber)`; an absent argument is
`undefined`. -/
def fail {α : Type} (message filePath : String) (lineNumber : Val) : Throws α :=
  .error (.failure (failMessage message filePath lineNumber))

/-- The constant `FUNCTION_EXPRESSION_TYPES`. -/
def FUNCTION_EXPRESSION_TYPES : List String := ["FunctionExpression", "ArrowFunctionExpression"]

/-- The constant `OBJECT_TYPES`. -/
def OBJECT_TYPES : List String := ["ObjectExpression"]

/-- The constant `ERROR_PROPERTY_TYPES`. -/
def ERROR_PROPERTY_TYPES : List String :=
  ["Literal", "MemberExpression", "BinaryExpression", "LogicalExpression"]

/-- The constant `NOT_ERRORS`. -/
def NOT_ERRORS : List String := ["toString", "header", "backtrace", "translate"]

/-- The method `types.has(value)` of a set of strings. -/
def setHas (types : List String) : Val → Bool
  | str t => types.contains t
  | _ => false

/-- The function `assertType (node, types, filePath)`. -/
def assertType (node : Val) (types : List String) (filePath : String) : Throws Unit :=
  if !truthy node then
    fail ("Expected type [" ++ ",".intercalate types ++ "], found nothing") filePath undef
  else do
    let nodeType ← liftThrow (getProp node "type")
    if !setHas types nodeType then
      let loc ← liftThrow (getProp node "loc")
      let start ← liftThrow (getProp loc "start")
      let line ← liftThrow (getProp start "line")
      let column ← liftThrow (getProp start "column")
      fail ("Expected type [" ++ ",".intercalate types ++ "], found \"" ++ toStr nodeType ++
        "\" at column \"" ++ toStr column ++ "\"") filePath line
    else pure ()

/-! ## Module exports -/

/-- The function `findAssignmentsTo (node, lhs)`. -/
def findAssignmentsTo (node lhs : Val) : List Val :=
  find node (obj [("type", str "AssignmentExpression"), ("operator", str "="), ("left", lhs)])
    { recursive := true }

/-- The first pattern of `findModuleExports`: a member of `module.exports`. -/
def moduleExportsMember : Val :=
  obj [("type", str "MemberExpression"),
    ("object", obj [("type", str "MemberExpression"),
      ("object", obj [("type", str "Identifier"), ("name", str "module")]),
      ("property", obj [("type", str "Identifier"), ("name", str "exports")])])]

/-- The second pattern of `findModuleExports`: a member of `exports`. -/
def exportsMember : Val :=
  obj [("type", str "MemberExpression"),
    ("object", obj [("type", str "Identifier"), ("name", str "exports")])]

/-- The function `findModuleExports (node)`. -/
def findModuleExports (node : Val) : List Val :=
  findAssignmentsTo node moduleExportsMember ++ findAssignmentsTo node exportsMember

/-- The function `findExportedFunction (node, filePath)`. -/
def findExportedFunction (node : Val) (filePath : String) : Throws Val :=
  match findModuleExports node with
  | [exported] => do
    let exportedFunction ← liftThrow (getProp exported "right")
    assertType exportedFunction FUNCTION_EXPRESSION_TYPES filePath
    liftThrow (getProp exportedFunction "body")
  | exported =>
    fail ("Expected 1 export, found " ++ toString exported.length) filePath undef

/-! ## Errors -/

/-- The function `findProperty (node, key, types, filePath)`; without a matching
property it returns `undefined`. -/
def findProperty (node : Val) (key : String) (types : List String) (filePath : String) :
    Throws Val := do
  let properties ← liftThrow (getProp node "properties")
  let found := (find properties
    (obj [("type", str "Property"), ("kind", str "init"),
      ("key", obj [("type", str "Identifier"), ("name", str key)])])
    { array := true }).head?.getD undef
  if truthy found then
    let value ← liftThrow (getProp found "value")
    assertType value types filePath
    pure value
  else pure undef

/-- The function `marshallErrorProperty (node, name, errnoMap)`; `errnoMap` is
`none` when the argument is not passed. -/
def marshallErrorProperty (node : Val) (name : String) (errnoMap : Option Env) :
    Throws Val := do
  let property ← findProperty node name ERROR_PROPERTY_TYPES "lib/error.js"
  if truthy property then
    match getProp property "type" with
    | some (str "Literal") => liftThrow (getProp property "value")
    | some (str "BinaryExpression") => do
      let left ← liftThrow (getProp property "left")
      liftThrow (getProp left "value")
    | some (str "LogicalExpression") => do
      let right ← liftThrow (getProp property "right")
      liftThrow (getProp right "value")
    | some (str "MemberExpression") =>
      match errnoMap with
      | some errnoMap => do
        let object ← liftThrow (getProp property "object")
        let objectName ← liftThrow (getProp object "name")
        if strictEq objectName (str "ERRNO") then
          let member ← liftThrow (getProp property "property")
          let memberName ← liftThrow (getProp member "name")
          pure (mapGet errnoMap memberName)
        else pure undef
      | none => pure undef
    | _ => pure undef
  else pure undef

/-- The operator `a || b` on values. -/
def orElse (a b : Val) : Val := if truthy a then a else b

/-- The accumulator of `marshallErrors`. -/
structure ErrorsResult where
  errors : List Val
  additionalErrorParams : List Val

/-- The pattern of `marshallErrors`: `return new AppError(...)`. -/
def returnNewAppError : Val :=
  obj [("type", str "ReturnStatement"),
    ("argument", obj [("type", str "NewExpression"),
      ("callee", obj [("type", str "Identifier"), ("name", str "AppError")])])]

/-- The record of `additionalErrorParams` that `marshallErrors` pushes for the
second argument of `new AppError`, whose `properties` field is `params`.  A
truthy `params` that is not an array has no result in the model (a syntax tree
holds an array there). -/
def marshallErrorParams (errno defaultErrno params : Val) : Throws Val :=
  if !truthy params then
    pure (obj [("errno", orElse errno defaultErrno), ("hasParams", params), ("params", params)])
  else
    match params with
    | arr args => do
      let names ← args.mapM (fun arg => do
        let key ← liftThrow (getProp arg "key")
        liftThrow (getProp key "name"))
      pure (obj [("errno", orElse errno defaultErrno), ("hasParams", .bool (args.length > 0)),
        ("params", str (join names ", "))])
    | _ => .error .runtime

/-- The callback of `returns.forEach` in `marshallErrors`.  A truthy
`arguments` field that is not an array has no result in the model. -/
def marshallError (errnoMap defaultsMap : Env) (result : ErrorsResult) (r : Val) :
    Throws ErrorsResult := do
  let argument ← liftThrow (getProp r "argument")
  let args ← liftThrow (getProp argument "arguments")
  let pushError := fun (result : ErrorsResult) (code errno message : Val) =>
    ({ result with errors := result.errors ++
        [obj [("code", orElse code (mapGet defaultsMap (str "code"))),
          ("errno", orElse errno (mapGet defaultsMap (str "errno"))),
          ("definition", orElse message (mapGet defaultsMap (str "message")))]] } : ErrorsResult)
  if truthy args then
    match args with
    | arr args => do
      let error := args.head?.getD undef
      assertType error OBJECT_TYPES "lib/error.js"
      let code ← marshallErrorProperty error "code" none
      let errno ← marshallErrorProperty error "errno" (some errnoMap)
      let message ← marshallErrorProperty error "message" none
      if args.length > 1 then
        let params ← liftThrow (getProp (args.getD 1 undef) "properties")
        let record ← marshallErrorParams errno (mapGet defaultsMap (str "errno")) params
        pure (pushError
          { result with additionalErrorParams := result.additionalErrorParams ++ [record] }
          code errno message)
      else pure (pushError result code errno message)
    | _ => .error .runtime
  else pure (pushError result undef undef undef)

/-- The function `marshallErrors (errnoMap, defaultsMap, result, errorFunction)`. -/
def marshallErrors (errnoMap defaultsMap : Env) (result : ErrorsResult) (errorFunction : Val) :
    Throws ErrorsResult :=
  (find errorFunction returnNewAppError { recursive := true }).foldlM
    (marshallError errnoMap defaultsMap) result

/-- The comparison function `(lhs, rhs) => lhs.errno - rhs.errno` of
`parseErrors`, on records.  The difference of two values that are not both
numbers is `NaN`, which `sort` takes for zero, unless they convert to numbers;
the conversion of other values to numbers is outside the model. -/
def errnoDifference (lhs rhs : Val) : Int :=
  match getProp lhs "errno", getProp rhs "errno" with
  | some (num a), some (num b) => a - b
  | _, _ => 0

/-- The loop `findVariables(node).reduce((variables, variable) =>
variables.concat(variable.declarations), [])` of `parseErrors`; `concat` appends
the elements of an array and appends any other value as it is. -/
def collectDeclarations (node : Val) : Throws (List Val) :=
  (findVariables node).foldlM (fun vars variable_ => do
    let declarations ← liftThrow (getProp variable_ "declarations")
    pure (vars ++ (match declarations with
      | arr declarations => declarations
      | declarations => [declarations]))) []

/-- The function `filterDeclarations (declarations, name)`. -/
def filterDeclarations (declarations : List Val) (name : String) : Throws Val := do
  let found ← declarations.filterM (fun declaration => do
    let init ← liftThrow (getProp declaration "init")
    if truthy init then
      let id ← liftThrow (getProp declaration "id")
      let idName ← liftThrow (getProp id "name")
      pure (strictEq idName (str name))
    else pure false)
  liftThrow (getProp (found.head?.getD undef) "init")

/-- The function `parseObject (object, variables)`. -/
def parseObject (object : Val) (vars : Env) : Throws Env := do
  let properties ← liftThrow (getProp object "properties")
  match properties with
  | arr properties => do
    let entries ← properties.mapM (fun property => do
      let key ← liftThrow (getProp property "key")
      let keyName ← liftThrow (getProp key "name")
      let value ← liftThrow (getProp property "value")
      let marshalled ← liftThrow (marshallValue value vars)
      pure (keyName, marshalled))
    pure (entries.foldl (fun map entry => mapSet map entry.1 entry.2) [])
  | _ => .error .runtime

/-- The function `findAppErrors (node)`. -/
def findAppErrors (node : Val) : Throws (List Val) :=
  (findAssignmentsTo node
    (obj [("type", str "MemberExpression"),
      ("object", obj [("type", str "Identifier"), ("name", str "AppError")])])).filterM
    (fun assignment => do
      let left ← liftThrow (getProp assignment "left")
      let member ← liftThrow (getProp left "property")
      let memberName ← liftThrow (getProp member "name")
      pure (!setHas NOT_ERRORS memberName))

/-- The accumulator that the `reduce` of `parseErrors` builds from the parsed
module `node`. -/
def collectErrors (node : Val) : Throws ErrorsResult := do
  let declarations ← collectDeclarations node
  let errno ← filterDeclarations declarations "ERRNO"
  let defaults ← filterDeclarations declarations "DEFAULTS"
  assertType errno OBJECT_TYPES "lib/error.js"
  assertType defaults OBJECT_TYPES "lib/error.js"
  let errnoMap ← parseObject errno EMPTY_MAP
  let defaultsMap ← parseObject defaults errnoMap
  let appErrors ← findAppErrors node
  appErrors.foldlM (marshallErrors errnoMap defaultsMap) ⟨[], []⟩

/-- The function `parseErrors`, from the parsed module `node` on (the callback
of `parseModule('../lib/error').then`): the accumulator `result` of the `reduce`
is `collectErrors node`, and both of its lists are sorted with the comparison
function `(lhs, rhs) => lhs.errno - rhs.errno`. -/
def parseErrors (node : Val) : Throws ErrorsResult := do
  let result ← collectErrors node
  pure { errors := sortWith errnoDifference result.errors
         additionalErrorParams := sortWith errnoDifference result.additionalErrorParams }

/-- The first argument `{ errno: ERRNO.K, message: m }` of `returnAppError`. -/
def appErrorObject (K m : String) : Val :=
  objectExpression [property (identifier "errno")
      (memberExpression (identifier "ERRNO") (identifier K)),
    property (identifier "message") (literal (str m))]

/-- The record of `errors` with the given fields. -/
def errorRecord (code errno definition : Val) : Val :=
  obj [("code", code), ("errno", errno), ("definition", definition)]

/-- The number that a record holds in its field `errno`. -/
def errnoOf (record : Val) : Int :=
  match getProp record "errno" with
  | some (num n) => n
  | _ => 0

/-- The field `errno` of the record is a number. -/
def NumericErrno (record : Val) : Prop := ∃ n : Int, getProp record "errno" = some (num n)

/-- A `ReturnStatement` node. -/
def returnStatement (argument : Val) : Val :=
  obj [("type", str "ReturnStatement"), ("argument", argument)]

/-- A `NewExpression` node. -/
def newExpression (callee : Val) (arguments : List Val) : Val :=
  obj [("type", str "NewExpression"), ("callee", callee), ("arguments", arr arguments)]

/-- An `AssignmentExpression` node `left = right`. -/
def assignmentExpression (left right : Val) : Val :=
  obj [("type", str "AssignmentExpression"), ("operator", str "="), ("left", left),
    ("right", right)]

/-- A `FunctionExpression` node. -/
def functionExpression (params : List Val) (body : Val) : Val :=
  obj [("type", str "FunctionExpression"), ("id", null), ("params", arr params),
    ("body", body)]

/-- A `BlockStatement` node. -/
def blockStatement (body : List Val) : Val :=
  obj [("type", str "BlockStatement"), ("body", arr body)]

/-- An `ExpressionStatement` node. -/
def expressionStatement (expression : Val) : Val :=
  obj [("type", str "ExpressionStatement"), ("expression", expression)]

/-- The statement `return new AppError({ errno: ERRNO.K, message: m })`. -/
def returnAppError (K m : String) : Val :=
  returnStatement (newExpression (identifier "AppError")
    [objectExpression [property (identifier "errno")
        (memberExpression (identifier "ERRNO") (identifier K)),
      property (identifier "message") (literal (str m))]])

/-- The assignment `AppError.accountExists = function () { return new AppError({
errno: ERRNO.K, message: m }) }`. -/
def appErrorFunction (K m : String) : Val :=
  assignmentExpression (memberExpression (identifier "AppError") (identifier "accountExists"))
    (functionExpression [] (blockStatement [returnAppError K m]))

/-- The value `node` is a function or arrow-function expression: its type is in
`FUNCTION_EXPRESSION_TYPES`. -/
def IsFunctionValued (node : Val) : Prop :=
  ∃ t ∈ FUNCTION_EXPRESSION_TYPES, getProp node "type" = some (str t)

/-- The member access `module.exports`. -/
def moduleDotExports : Val := memberExpression (identifier "module") (identifier "exports")

/-- The module `module.exports.exports = function () {}`. -/
def moduleExportsExports : Val :=
  arr [expressionStatement (assignmentExpression
    (memberExpression moduleDotExports (identifier "exports"))
    (functionExpression [] (blockStatement [])))]

/-- The module `module.exports = function () { exports.x = 1 }`. -/
def moduleNestedExport : Val :=
  arr [expressionStatement (assignmentExpression moduleDotExports
    (functionExpression [] (blockStatement [expressionStatement
      (assignmentExpression (memberExpression (identifier "exports") (identifier "x"))
        (literal (num 1)))])))]

/-- The module without statements. -/
def moduleEmpty : Val := arr []

/-- The pattern that `findAssignmentsTo (node, lhs)` searches. -/
def assignmentTo (lhs : Val) : Val :=
  obj [("type", str "AssignmentExpression"), ("operator", str "="), ("left", lhs)]

/-- The object literal `{ code: code, errno: errno, message: message }` with
literal values. -/
def errorObject (code errno : Int) (message : String) : Val :=
  objectExpression [property (identifier "code") (literal (num code)),
    property (identifier "errno") (literal (num errno)),
    property (identifier "message") (literal (str message))]

/-- The statement `AppError.name = function (params) { return new AppError(args) }`. -/
def appErrorStatement (name : String) (params args : List Val) : Val :=
  expressionStatement (assignmentExpression
    (memberExpression (identifier "AppError") (identifier name))
    (functionExpression params (blockStatement [returnStatement
      (newExpression (identifier "AppError") args)])))

/-- A module in the form of `lib/error.js`, whose errors are not declared in the
order of their `errno`:

    const ERRNO = {}
    const DEFAULTS = {}
    AppError.unknownAccount = function (email) {
      return new AppError({ code: 400, errno: 102, message: 'Unknown account' },
        { email: email }) }
    AppError.unspecified = function () {
      return new AppError({ code: 500, errno: 999, message: 'Unspecified error' }) }
    AppError.accountExists = function (email) {
      return new AppError({ code: 400, errno: 101, message: 'Account exists' },
        { email: email }) } -/
def errorModule : Val :=
  arr [variableDeclaration [variableDeclarator (identifier "ERRNO") (objectExpression [])],
    variableDeclaration [variableDeclarator (identifier "DEFAULTS") (objectExpression [])],
    appErrorStatement "unknownAccount" [identifier "email"]
      [errorObject 400 102 "Unknown account",
        objectExpression [property (identifier "email") (identifier "email")]],
    appErrorStatement "unspecified" [] [errorObject 500 999 "Unspecified error"],
    appErrorStatement "accountExists" [identifier "email"]
      [errorObject 400 101 "Account exists",
        objectExpression [property (identifier "email") (identifier "email")]]]

/-- The records that the `reduce` of `parseErrors` collects from `errorModule`,
in the order of the module. -/
def errorModuleCollected : ErrorsResult :=
  { errors := [errorRecord (num 400) (num 102) (str "Unknown account"),
      errorRecord (num 500) (num 999) (str "Unspecified error"),
      errorRecord (num 400) (num 101) (str "Account exists")]
    additionalErrorParams :=
      [obj [("errno", num 102), ("hasParams", .bool true), ("params", str "email")],
        obj [("errno", num 101), ("hasParams", .bool true), ("params", str "email")]] }

/-! ## `getSlug` -/

/-- The class `\s` of regular expressions: the white space and line terminator
characters of the language. -/
def isJsSpace (c : Char) : Bool :=
  let n := c.toNat
  (9 ≤ n && n ≤ 13) || n == 32 || n == 160 || n == 5760 || (8192 ≤ n && n ≤ 8202) ||
    n == 8232 || n == 8233 || n == 8239 || n == 8287 || n == 12288 || n == 65279

/-- The class `[a-z0-9_-]`. -/
def isSlugChar (c : Char) : Bool :=
  let n := c.toNat
  (97 ≤ n && n ≤ 122) || (48 ≤ n && n ≤ 57) || n == 95 || n == 45

/-- The function `getSlug (string)`.  The method `toLowerCase` of the runtime,
which maps letters of every script, is a parameter. -/
def getSlug (toLowerCase : String → String) (string : String) : String :=
  String.mk (((toLowerCase string).data.map (fun c => if isJsSpace c then '-' else c)).filter
    isSlugChar)

/-- The restriction of `toLowerCase` to the letters `A` to `Z`. -/
def asciiLower (string : String) : String := String.mk (string.data.map Char.toLower)

/-- The tokens of `tokens` without repetition: each at its first occurrence. -/
def firstOccurrences : List String → List String
  | [] => []
  | x :: xs => x :: (firstOccurrences xs).filter (fun t => t != x)

/-- The clauses of the summary for a list of canonical tokens: the clause of the
OAuth token first, when the list holds it, then one clause for each of the other
tokens in the order of the list. -/
def summaryClauses (tokens : List String) : List String :=
  (if "oauthToken" ∈ tokens then ["authenticated with OAuth bearer token"] else []) ++
    (tokens.filter (fun t => t != "oauthToken")).map
      (fun t => "HAWK-authenticated with " ++ uncamel t)

/-- The value `node` is a `Literal` node with the given value. -/
def IsLiteral (node value : Val) : Prop :=
  getProp node "type" = some (str "Literal") ∧ getProp node "value" = some value

/-- The value `v` is `node` itself or is reached from `node` through elements
of arrays only. -/
inductive ThroughArrays : Val → Val → Prop
  | self (v : Val) : ThroughArrays v v
  | elem {es : List Val} {e v : Val} : e ∈ es → ThroughArrays e v → ThroughArrays (arr es) v

/-! ## `findReturnedData` -/

/-- The constant `ARRAY_TYPES`. -/
def ARRAY_TYPES : List String := ["ArrayExpression"]

/-- The constant `RETURN_TYPES`. -/
def RETURN_TYPES : List String := ["ReturnStatement"]

/-- The function `findReturnedData (functionNode, filePath)`.  The variable
`returnedData` is declared without a value: in the branch of a body that is
not a `BlockStatement` it is still `undefined` when `assertType` receives it,
and it is assigned `functionNode.argument` only afterwards. -/
def findReturnedData (functionNode : Val) (filePath : String) : Throws Val := do
  let functionType ← liftThrow (getProp functionNode "type")
  let returnedData ←
    if strictEq functionType (str "BlockStatement") then do
      let body ← liftThrow (getProp functionNode "body")
      match find body (obj [("type", str "ReturnStatement")]) { array := true } with
      | [returned] => liftThrow (getProp returned "argument")
      | returned =>
        fail ("Expected 1 return statement, found " ++ toString returned.length) filePath undef
    else do
      assertType undef RETURN_TYPES filePath
      liftThrow (getProp functionNode "argument")
  let returnedType ← liftThrow (getProp returnedData "type")
  let returnedData ←
    if strictEq returnedType (str "Identifier") then do
      let name ← liftThrow (getProp returnedData "name")
      match find functionNode
          (obj [("type", str "VariableDeclarator"),
            ("id", obj [("type", str "Identifier"), ("name", name)])])
          { recursive := true } with
      | [routeDefinitions] => liftThrow (getProp routeDefinitions "init")
      | routeDefinitions =>
        fail ("Expected 1 set of route definitions, found " ++
          toString routeDefinitions.length) filePath undef
    else pure returnedData
  assertType returnedData ARRAY_TYPES filePath
  liftThrow (getProp returnedData "elements")

/-- The statements of the callback of `marshallRouteData` that compute `routes`
for the file with the syntax tree `node`: `parseVariables`, then
`findExportedFunction`, then `findReturnedData`. -/
def findRoutes (node : Val) (filePath : String) : Throws Val := do
  let _ ← liftThrow (parseVariables node)
  let exportedFunction ← findExportedFunction node filePath
  findReturnedData exportedFunction filePath

/-- An `ArrayExpression` node. -/
def arrayExpression (elements : List Val) : Val :=
  obj [("type", str "ArrayExpression"), ("elements", arr elements)]

/-- An `ArrowFunctionExpression` node; the body of an arrow function is a block
or an expression. -/
def arrowFunctionExpression (params : List Val) (body : Val) : Val :=
  obj [("type", str "ArrowFunctionExpression"), ("id", null), ("params", arr params),
    ("body", body)]

/-- The module `module.exports = log => []`. -/
def moduleArrowExport : Val :=
  arr [expressionStatement (assignmentExpression moduleDotExports
    (arrowFunctionExpression [identifier "log"] (arrayExpression [])))]

/-! ## Modules and their export assignments -/

/-- The statement `left = right`. -/
def assignmentStatement (left right : Val) : Val :=
  expressionStatement (assignmentExpression left right)

/-- The member access `exports.X`. -/
def exportsDot (X : String) : Val := memberExpression (identifier "exports") (identifier X)

/-- The member access `module.exports.X`. -/
def moduleExportsDot (X : String) : Val := memberExpression moduleDotExports (identifier X)

/-- The left-hand sides of an export assignment: `module.exports`,
`module.exports.X` and `exports.X`. -/
def ExportTarget (left : Val) : Prop :=
  left = moduleDotExports ∨ ∃ X : String, left = moduleExportsDot X ∨ left = exportsDot X

/-- Neither search of `findModuleExports` finds an assignment in a statement of
the list, and every statement is an object. -/
def NoExports (statements : List Val) : Prop :=
  ∀ s ∈ statements, isObject s = true ∧
    findAssignmentsTo s moduleExportsMember = [] ∧ findAssignmentsTo s exportsMember = []

/-- The module `const isA = require('joi'); module.exports = function (log) {
exports.x = 1; return [] }; f()`, in which the assignment to `module.exports`
stands among statements without exports and holds an assignment to `exports.x`
in its function. -/
def moduleAmongStatements : Val :=
  arr [variableDeclaration [variableDeclarator (identifier "isA")
      (callExpression (identifier "require") [literal (str "joi")])],
    assignmentStatement moduleDotExports (functionExpression [identifier "log"]
      (blockStatement [assignmentStatement (exportsDot "x") (literal (num 1)),
        returnStatement (arrayExpression [])])),
    expressionStatement (callExpression (identifier "f") [])]

/-- The module `module.exports.routes = (log) => []`. -/
def moduleExportsRoutes : Val :=
  arr [assignmentStatement (moduleExportsDot "routes")
    (arrowFunctionExpression [identifier "log"] (arrayExpression []))]

/-- The module `exports.a = function () {}; exports.b = function () {}`. -/
def moduleTwoExports : Val :=
  arr [assignmentStatement (exportsDot "a") (functionExpression [] (blockStatement [])),
    assignmentStatement (exportsDot "b") (functionExpression [] (blockStatement []))]

/-! # Properties -/

/-! ## Equality -/

mutual
theorem Val.beq_iff : ∀ a b : Val, Val.beq a b = true ↔ a = b
  | undef, b => by cases b <;> simp [Val.beq]
  | null, b => by cases b <;> simp [Val.beq]
  | bool _, b => by cases b <;> simp [Val.beq]
  | num _, b => by cases b <;> simp [Val.beq]
  | str _, b => by cases b <;> simp [Val.beq]
  | obj ps, b => by
    cases b <;> simp [Val.beq]
    exact Val.beqProps_iff ps _
  | arr es, b => by
    cases b <;> simp [Val.beq]
    exact Val.beqElems_iff es _
theorem Val.beqProps_iff : ∀ ps qs : List (String × Val), Val.beqProps ps qs = true ↔ ps = qs
  | [], [] => by simp [Val.beqProps]
  | [], _ :: _ => by simp [Val.beqProps]
  | _ :: _, [] => by simp [Val.beqProps]
  | (k, v) :: ps, (l, w) :: qs => by
    simp [Val.beqProps, Val.beq_iff v w, Val.beqProps_iff ps qs, and_assoc]
theorem Val.beqElems_iff : ∀ es fs : List Val, Val.beqElems es fs = true ↔ es = fs
  | [], [] => by simp [Val.beqElems]
  | [], _ :: _ => by simp [Val.beqElems]
  | _ :: _, [] => by simp [Val.beqElems]
  | v :: es, w :: fs => by
    simp [Val.beqElems, Val.beq_iff v w, Val.beqElems_iff es fs]
end

theorem strictEq_iff (a b : Val) : strictEq a b = true ↔ a = b := Val.beq_iff a b

theorem strictEq_self (a : Val) : strictEq a a = true := (strictEq_iff a a).2 rfl

/-! ## `match` -/

theorem someProp_iff (ps : List (String × Val)) (c : Val) :
    someProp ps c = true ↔ ∃ p ∈ ps, match_ p.2 c = true := by
  induction ps with
  | nil => simp [someProp]
  | cons p ps ih =>
    obtain ⟨k, v⟩ := p
    simp [someProp, ih]

theorem someElem_iff (es : List Val) (c : Val) :
    someElem es c = true ↔ ∃ n ∈ es, match_ n c = true := by
  induction es with
  | nil => simp [someElem]
  | cons v es ih => simp [someElem, ih]

/-- Reading every key of an object whose keys are pairwise distinct gives its
property values in order: `Object.keys(node).map(key => node[key])`. -/
theorem lookup_keys (ps : List (String × Val)) (h : (ps.map Prod.fst).Nodup) :
    (ps.map Prod.fst).map (fun key => (ps.lookup key).getD undef) = ps.map Prod.snd := by
  induction ps with
  | nil => rfl
  | cons p ps ih =>
    obtain ⟨k, v⟩ := p
    simp only [List.map_cons, List.nodup_cons] at h ⊢
    congr 1
    · simp [List.lookup]
    · rw [← ih h.2]
      apply List.map_congr_left
      intro k' hk'
      have hne : k' ≠ k := fun he => h.1 (he ▸ hk')
      have hb : (k' == k) = false := by simpa using hne
      simp [List.lookup, hb]

/-- The loop of `match` over `Object.keys(node)`, reading `node[nodeKey]`, is the
loop `someProp` over the properties of the object. -/
theorem someProp_eq_keys (ps : List (String × Val)) (h : (ps.map Prod.fst).Nodup) (c : Val) :
    ((ps.map Prod.fst).any fun nodeKey => match_ ((ps.lookup nodeKey).getD undef) c)
      = someProp ps c := by
  have h1 : ∀ qs : List (String × Val),
      someProp qs c = (qs.map Prod.snd).any (fun n => match_ n c) := by
    intro qs
    induction qs with
    | nil => rfl
    | cons q qs ih => obtain ⟨k, v⟩ := q; simp [someProp, ih]
  have h2 : ∀ ks : List String,
      (ks.any fun nodeKey => match_ ((ps.lookup nodeKey).getD undef) c)
        = (ks.map (fun key => (ps.lookup key).getD undef)).any (fun n => match_ n c) := by
    intro ks
    induction ks with
    | nil => rfl
    | cons k ks ih => simp [ih]
  rw [h1, h2, lookup_keys ps h]

/-- The loop of `find` over `Object.keys(node)`, reading `node[key]`, is the loop
`findProps` over the properties of the object. -/
theorem findProps_eq_keys (ps : List (String × Val)) (h : (ps.map Prod.fst).Nodup)
    (c : Val) (o : Options) :
    ((ps.map Prod.fst).flatMap fun key => find ((ps.lookup key).getD undef) c o)
      = findProps ps c o := by
  have h1 : ∀ qs : List (String × Val),
      findProps qs c o = (qs.map Prod.snd).flatMap (fun e => find e c o) := by
    intro qs
    induction qs with
    | nil => simp [findProps]
    | cons q qs ih => obtain ⟨k, v⟩ := q; simp [findProps, ih]
  have h2 : ∀ ks : List String,
      (ks.flatMap fun key => find ((ps.lookup key).getD undef) c o)
        = (ks.map (fun key => (ps.lookup key).getD undef)).flatMap (fun e => find e c o) := by
    intro ks
    induction ks with
    | nil => rfl
    | cons k ks ih => simp [ih]
  rw [h1, h2, lookup_keys ps h]

theorem fieldValues_namedFields (node : Val) :
    fieldValues node = (namedFields node).map Prod.snd := by
  cases node <;> simp [fieldValues, namedFields]
  rename_i es
  have h : ∀ (l : List Val) (n : Nat),
      l = List.map (Prod.snd ∘ fun (ie : Nat × Val) => (toString ie.1, ie.2)) (List.enumFrom n l) := by
    intro l
    induction l with
    | nil => intro n; rfl
    | cons a l ih => intro n; simp only [List.enumFrom, List.map, Function.comp]; congr 1; exact ih (n + 1)
  exact h es 0

theorem match_scalar (node pattern : Val) (h : isObject node = false) :
    match_ node pattern = strictEq node pattern := by
  cases node <;> simp [isObject] at h <;> simp [match_]

theorem match_fields (node pattern : Val) (hn : isObject node = true) :
    match_ node pattern = true ↔
      isObject pattern = true ∧
        ∀ p ∈ fieldValues pattern, ∃ n ∈ fieldValues node, match_ n p = true := by
  cases node <;> simp [isObject] at hn
  · rename_i ps
    cases hp : isObject pattern <;> simp [match_, hp, someProp_iff, fieldValues]
    constructor
    · intro h p hp'
      obtain ⟨a, b, hab, hm⟩ := h p hp'
      exact ⟨b, ⟨a, hab⟩, hm⟩
    · intro h p hp'
      obtain ⟨b, ⟨a, hab⟩, hm⟩ := h p hp'
      exact ⟨a, b, hab, hm⟩
  · rename_i es
    cases hp : isObject pattern <;> simp [match_, hp, someElem_iff, fieldValues]

theorem mem_of_lookup {ps : List (String × Val)} {k : String} {v : Val}
    (h : ps.lookup k = some v) : (k, v) ∈ ps := by
  induction ps with
  | nil => simp at h
  | cons p ps ih =>
    obtain ⟨k', w⟩ := p
    simp only [List.lookup] at h
    split at h
    · rename_i heq
      have hk : k = k' := by simpa using heq
      simp at h
      subst h; subst hk
      exact List.mem_cons_self _ _
    · exact List.mem_cons_of_mem _ (ih h)

theorem fieldValues_size {node n : Val} (h : n ∈ fieldValues node) : n.size < node.size := by
  cases node <;> simp [fieldValues] at h
  · rename_i ps
    obtain ⟨k, hk⟩ := h
    have : ∀ (qs : List (String × Val)), (k, n) ∈ qs → n.size < 1 + sizeProps qs := by
      intro qs
      induction qs with
      | nil => simp
      | cons q qs ih =>
        intro hq
        obtain ⟨k', w⟩ := q
        simp only [sizeProps]
        rcases List.mem_cons.1 hq with hq | hq
        · cases hq; omega
        · have := ih hq; omega
    simpa [Val.size] using this ps hk
  · simpa [Val.size] using mem_size h

theorem mem_of_lookup_named {node : Val} {k : String} {v : Val}
    (h : (namedFields node).lookup k = some v) : (k, v) ∈ namedFields node :=
  mem_of_lookup h

theorem match_reference (node pattern : Val) : MatchReference match_ node pattern := by
  refine ⟨?_, ?_, ?_⟩
  · intro hn
    rw [match_scalar node pattern hn]
    exact strictEq_iff node pattern
  · intro hn hp
    cases h : match_ node pattern
    · rfl
    · have := ((match_fields node pattern hn).1 h).1
      rw [hp] at this
      cases this
  · intro hn hp
    rw [match_fields node pattern hn]
    simp [hp]

theorem match_reference_unique (m : Val → Val → Bool)
    (hm : ∀ node pattern, MatchReference m node pattern) :
    ∀ (k : Nat) (node pattern : Val), node.size < k → m node pattern = match_ node pattern := by
  intro k
  induction k with
  | zero => intro node pattern h; omega
  | succ k ih =>
    intro node pattern hk
    obtain ⟨h1, h2, h3⟩ := hm node pattern
    obtain ⟨g1, g2, g3⟩ := match_reference node pattern
    rw [Bool.eq_iff_iff]
    cases hn : isObject node
    · rw [h1 hn, g1 hn]
    · cases hp : isObject pattern
      · rw [h2 hn hp, g2 hn hp]
      · rw [h3 hn hp, g3 hn hp]
        constructor
        · intro h p hpm
          obtain ⟨n, hnm, hmn⟩ := h p hpm
          refine ⟨n, hnm, ?_⟩
          rw [← ih n p (by have := fieldValues_size hnm; omega)]
          exact hmn
        · intro h p hpm
          obtain ⟨n, hnm, hmn⟩ := h p hpm
          refine ⟨n, hnm, ?_⟩
          rw [ih n p (by have := fieldValues_size hnm; omega)]
          exact hmn

/-- C1, as stated, fails: the pattern `{ b: 1 }` matches the node `{ a: 1 }`,
which has no field named `b`. -/
theorem match_same_name_counterexample :
    ¬ (match_ (obj [("a", num 1)]) (obj [("b", num 1)]) = true ↔
        SameNameMatch (obj [("a", num 1)]) (obj [("b", num 1)])) := by
  intro h
  have hm : match_ (obj [("a", num 1)]) (obj [("b", num 1)]) = true := by decide
  obtain ⟨n, hn, _⟩ := h.1 hm ("b", num 1) (by simp [namedFields])
  simp [namedFields, List.lookup] at hn

/-- C1, amended: for a field-bearing node and a field-bearing pattern, `match`
is true if and only if every field of the pattern recursively matches at least
one field of the node, whatever the name of that field; matching every pattern
field against the node's field of the same name is sufficient for a match. -/
theorem match_iff_any_field (node pattern : Val)
    (hn : isObject node = true) (hp : isObject pattern = true) :
    (match_ node pattern = true ↔
      ∀ p ∈ namedFields pattern, ∃ n ∈ namedFields node, match_ n.2 p.2 = true) ∧
    (SameNameMatch node pattern → match_ node pattern = true) := by
  have key : match_ node pattern = true ↔
      ∀ p ∈ namedFields pattern, ∃ n ∈ namedFields node, match_ n.2 p.2 = true := by
    rw [match_fields node pattern hn, fieldValues_namedFields, fieldValues_namedFields]
    simp only [hp, true_and, List.mem_map]
    constructor
    · intro h p hpm
      obtain ⟨n, ⟨q, hq, rfl⟩, hmn⟩ := h p.2 ⟨p, hpm, rfl⟩
      exact ⟨q, hq, hmn⟩
    · rintro h _ ⟨p, hpm, rfl⟩
      obtain ⟨q, hq, hmn⟩ := h p hpm
      exact ⟨q.2, ⟨q, hq, rfl⟩, hmn⟩
  refine ⟨key, fun h => key.2 ?_⟩
  intro p hpm
  obtain ⟨n, hl, hmn⟩ := h p hpm
  exact ⟨(p.1, n), mem_of_lookup_named hl, hmn⟩

/-- C1, amended, at the node `{ a: 1 }` and the pattern `{ b: 1 }`. -/
theorem match_iff_any_field_witness :
    (match_ (obj [("a", num 1)]) (obj [("b", num 1)]) = true ↔
      ∀ p ∈ namedFields (obj [("b", num 1)]),
        ∃ n ∈ namedFields (obj [("a", num 1)]), match_ n.2 p.2 = true) ∧
    (SameNameMatch (obj [("a", num 1)]) (obj [("b", num 1)]) →
      match_ (obj [("a", num 1)]) (obj [("b", num 1)]) = true) :=
  match_iff_any_field (obj [("a", num 1)]) (obj [("b", num 1)]) rfl rfl

/-- C2: `match` satisfies the reference definition at every node and pattern,
and it is the only function that does. -/
theorem match_eq_reference :
    (∀ node pattern, MatchReference match_ node pattern) ∧
    ∀ m : Val → Val → Bool, (∀ node pattern, MatchReference m node pattern) →
      ∀ node pattern, m node pattern = match_ node pattern :=
  ⟨match_reference, fun m hm node pattern =>
    match_reference_unique m hm (node.size + 1) node pattern (Nat.lt_succ_self _)⟩

/-- C3: the empty pattern `{}` matches every field-bearing node. -/
theorem match_empty_pattern (node : Val) (h : isObject node = true) :
    match_ node (obj []) = true := by
  rw [match_fields node (obj []) h]
  simp [isObject, fieldValues]

/-- C3 at the empty array and at an object with a field. -/
theorem match_empty_pattern_witness :
    match_ (arr []) (obj []) = true ∧ match_ (obj [("type", str "Literal")]) (obj []) = true :=
  ⟨match_empty_pattern (arr []) rfl, match_empty_pattern (obj [("type", str "Literal")]) rfl⟩

/-! ## `find` -/

theorem findElems_eq (es : List Val) (c : Val) (o : Options) :
    findElems es c o = es.flatMap (fun e => find e c o) := by
  induction es with
  | nil => simp [findElems]
  | cons v es ih => simp [findElems, ih]

theorem findProps_eq (ps : List (String × Val)) (c : Val) (o : Options) :
    findProps ps c o = (ps.map Prod.snd).flatMap (fun e => find e c o) := by
  induction ps with
  | nil => simp [findProps]
  | cons p ps ih =>
    obtain ⟨k, v⟩ := p
    simp [findProps, ih]

theorem find_of_match (node c : Val) (o : Options) (h : match_ node c = true) :
    find node c o = [node] := by
  cases node <;> simp [find, h]

theorem find_array_mode_not_array (node c : Val) (hm : match_ node c = false)
    (ha : isArray node = false) : find node c { array := true } = [] := by
  cases node <;> simp [isArray] at ha <;> simp [find, hm]

theorem flatMap_find_filter (es : List Val) (c : Val)
    (h : ∀ e ∈ es, isArray e = true → match_ e c = true) :
    es.flatMap (fun e => find e c { array := true }) = es.filter (fun e => match_ e c) := by
  induction es with
  | nil => rfl
  | cons v es ih =>
    have ih' := ih (fun e he => h e (List.mem_cons_of_mem _ he))
    rw [List.flatMap_cons, ih']
    cases hm : match_ v c
    · have ha : isArray v = false := by
        cases hv : isArray v
        · rfl
        · have := h v (List.mem_cons_self _ _) hv
          rw [hm] at this
          cases this
      rw [find_array_mode_not_array v c hm ha]
      simp [List.filter, hm]
    · rw [find_of_match v c _ hm]
      simp [List.filter, hm]

theorem find_array_eq_filter (es : List Val) (criteria : Val)
    (hseq : match_ (arr es) criteria = false)
    (hnest : ∀ e ∈ es, isArray e = true → match_ e criteria = true) :
    find (arr es) criteria { array := true } = es.filter (fun e => match_ e criteria) := by
  rw [find]
  simp only [hseq, Bool.false_eq_true, if_false, if_true]
  rw [findElems_eq, flatMap_find_filter es criteria hnest]

/-- C4, as stated, fails.  The empty sequence has no matching element, yet it
matches the pattern `{}` itself and is returned; and the sequence `[[t]]` has no
matching element (its only element `[t]` does not match `{ type: 'T' }`), yet
`t`, which sits in the nested sequence, is returned. -/
theorem find_array_counterexample :
    find (arr []) (obj []) { array := true } = [arr []] ∧
    ([] : List Val).filter (fun e => match_ e (obj [])) = [] ∧
    find (arr [arr [obj [("type", str "T")]]]) (obj [("type", str "T")]) { array := true }
      = [obj [("type", str "T")]] ∧
    [arr [obj [("type", str "T")]]].filter (fun e => match_ e (obj [("type", str "T")])) = [] :=
  ⟨rfl, rfl, rfl, rfl⟩

/-- C4, amended: for every pattern and every sequence that does not itself match
the pattern and whose elements that are sequences all match it, `find` in array
mode returns exactly the elements that match, in their original order; its
length is the number of matching elements. -/
theorem find_array_filter (es : List Val) (criteria : Val)
    (hseq : match_ (arr es) criteria = false)
    (hnest : ∀ e ∈ es, isArray e = true → match_ e criteria = true) :
    find (arr es) criteria { array := true } = es.filter (fun e => match_ e criteria) ∧
    (find (arr es) criteria { array := true }).length
      = es.countP (fun e => match_ e criteria) := by
  have h := find_array_eq_filter es criteria hseq hnest
  exact ⟨h, by rw [h, List.countP_eq_length_filter]⟩

/-- C4, amended, at a sequence of three statements of which the first and the
last match. -/
theorem find_array_filter_witness :
    find (arr [obj [("type", str "T"), ("id", num 1)], obj [("type", str "U")],
        obj [("type", str "T"), ("id", num 2)]]) (obj [("type", str "T")]) { array := true }
      = [obj [("type", str "T"), ("id", num 1)], obj [("type", str "T"), ("id", num 2)]] ∧
    (find (arr [obj [("type", str "T"), ("id", num 1)], obj [("type", str "U")],
        obj [("type", str "T"), ("id", num 2)]]) (obj [("type", str "T")])
        { array := true }).length = 2 :=
  find_array_filter [obj [("type", str "T"), ("id", num 1)], obj [("type", str "U")],
    obj [("type", str "T"), ("id", num 2)]] (obj [("type", str "T")]) rfl
    (by intro e he; simp at he; rcases he with rfl | rfl | rfl <;> simp [isArray])

/-- C5: in recursive mode (with or without the array option) `find` returns
`[node]` when the node matches, whatever its descendants are; otherwise it
returns the concatenation, in field order, of the recursive results for the
content of each field (for an array: of each element); for a scalar that does
not match it returns the empty list. -/
theorem find_recursive (node criteria : Val) (a : Bool) :
    (find node criteria { array := a, recursive := true } =
      if match_ node criteria then [node]
      else (fieldValues node).flatMap
        (fun c => find c criteria { array := a, recursive := true })) ∧
    (isObject node = false → match_ node criteria = false →
      find node criteria { array := a, recursive := true } = []) := by
  constructor
  · cases hm : match_ node criteria
    · cases node <;> simp [find, hm, fieldValues, findElems_eq, findProps_eq]
    · simp [find_of_match node criteria _ hm]
  · intro hn hm
    cases node <;> simp [isObject] at hn <;> simp [find, hm]

/-- C5 at a matching node that has a matching descendant, and at a node that
does not match and whose fields hold two matching descendants. -/
theorem find_recursive_witness :
    find (obj [("type", str "R"), ("body", obj [("type", str "R")])]) (obj [("type", str "R")])
        { recursive := true }
      = [obj [("type", str "R"), ("body", obj [("type", str "R")])]] ∧
    find (obj [("type", str "B"), ("body", arr [obj [("type", str "R"), ("id", num 1)],
        obj [("type", str "R"), ("id", num 2)]])]) (obj [("type", str "R")])
        { recursive := true }
      = [obj [("type", str "R"), ("id", num 1)], obj [("type", str "R"), ("id", num 2)]] :=
  ⟨(find_recursive _ _ false).1.trans rfl, (find_recursive _ _ false).1.trans rfl⟩

/-! ## `marshallValue`: one equation for each `case` -/

theorem marshallValue_literal (node : Val) (vars : Env)
    (ht : getProp node "type" = some (str "Literal")) :
    marshallValue node vars = getProp node "value" := by
  rw [marshallValue]
  simp only [ht]

theorem marshallValue_identifier (node name : Val) (vars : Env)
    (ht : getProp node "type" = some (str "Identifier"))
    (hn : getProp node "name" = some name) :
    marshallValue node vars =
      if truthy (mapGet vars name) then some (mapGet vars name) else some name := by
  rw [marshallValue]
  simp only [ht, hn]

theorem marshallValue_call (node callee : Val) (args : List Val) (vars : Env)
    (ht : getProp node "type" = some (str "CallExpression"))
    (hc : getProp node "callee" = some callee)
    (ha : getProp node "arguments" = some (arr args)) :
    marshallValue node vars =
      match marshallValue callee EMPTY_MAP with
      | none => none
      | some result =>
        if args.length > 0 then
          match allSome (args.map (fun argument => marshallValue argument vars)) with
          | none => none
          | some vs => some (str (toStr result ++ "(" ++ join vs ", " ++ ")"))
        else some result := by
  rw [marshallValue]
  simp only [ht]
  split
  · rename_i h; rw [hc] at h; cases h
  · rename_i c h
    rw [hc] at h; cases h
    split
    · rfl
    · rename_i result hr
      split
      · rename_i args2 h2
        rw [ha] at h2
        cases h2
        have hm : (args.attach.map (fun argument => marshallValue argument.1 vars))
            = args.map (fun argument => marshallValue argument vars) :=
          List.attach_map_val args (fun argument => marshallValue argument vars)
        rw [hm]
      · rename_i h2
        exact absurd ha (h2 _)

theorem marshallValue_member (node object property : Val) (vars : Env)
    (ht : getProp node "type" = some (str "MemberExpression"))
    (ho : getProp node "object" = some object)
    (hp : getProp node "property" = some property) :
    marshallValue node vars =
      match marshallValue property EMPTY_MAP, marshallValue property vars with
      | some unmapped, some mapped =>
        if !(strictEq mapped unmapped) then some mapped
        else
          match marshallValue object EMPTY_MAP with
          | none => none
          | some o => some (str (toStr o ++ "." ++ toStr unmapped))
      | _, _ => none := by
  rw [marshallValue]
  simp only [ht]
  split
  · rename_i h; rw [hp] at h; cases h
  · rename_i p h
    rw [hp] at h; cases h
    split
    · rename_i unmapped mapped h1 h2
      split
      · rfl
      · split
        · rename_i h; rw [ho] at h; cases h
        · rename_i ob h
          rw [ho] at h; cases h
          rfl
    · rfl

theorem marshallValue_object (node : Val) (props : List Val) (vars : Env)
    (ht : getProp node "type" = some (str "ObjectExpression"))
    (hp : getProp node "properties" = some (arr props)) :
    marshallValue node vars =
      match allSome (props.map (propertyText vars)) with
      | none => none
      | some properties => some (str ("\x7b " ++ join properties ", " ++ " \x7d")) := by
  rw [marshallValue]
  simp only [ht]
  split
  · rename_i props2 h2
    rw [hp] at h2
    cases h2
    rw [← List.attach_map_val props (propertyText vars)]
    congr 2
    apply List.map_congr_left
    intro property _
    simp only [propertyText]
    split
    · rfl
    · split
      · rfl
      · split
        · rename_i h; simp only [h]
        · rename_i h; simp only [h]
  · rename_i h2
    exact absurd hp (h2 _)

theorem mapGet_empty (key : Val) : mapGet EMPTY_MAP key = undef := rfl

theorem marshallValue_identifier_empty {node : Val} {x : String} (h : IsIdentifier node x) :
    marshallValue node EMPTY_MAP = some (str x) := by
  rw [marshallValue_identifier node (str x) EMPTY_MAP h.1 h.2, mapGet_empty]
  rfl

theorem allSome_map_of_forall₂ {f : Val → Option Val} {xs vs : List Val}
    (h : List.Forall₂ (fun a v => f a = some v) xs vs) : allSome (xs.map f) = some vs := by
  induction h with
  | nil => rfl
  | cons h _ ih => simp [allSome, h, ih]

theorem toStrElems_map_str (l : List String) : toStrElems (l.map str) = l := by
  induction l with
  | nil => rfl
  | cons a l ih => simp [toStrElems, toStr, ih]

/-! ## `marshallValue`: identifiers, member access, calls and object literals -/

/-- C6, as stated, fails: under an environment that binds `x` to `0`, the
identifier `x` evaluates to the string `x`, not to the bound value. -/
theorem marshallValue_identifier_counterexample :
    mapHas [(str "x", num 0)] (str "x") = true ∧
    marshallValue (identifier "x") [(str "x", num 0)] = some (str "x") ∧
    marshallValue (identifier "x") [(str "x", num 0)]
      ≠ some (mapGet [(str "x", num 0)] (str "x")) := by
  have h : marshallValue (identifier "x") [(str "x", num 0)] = some (str "x") :=
    (marshallValue_identifier (identifier "x") (str "x") _ rfl rfl).trans rfl
  refine ⟨rfl, h, ?_⟩
  rw [h]
  intro h'
  have h2 : mapGet [(str "x", num 0)] (str "x") = num 0 := rfl
  rw [h2] at h'
  cases h'

/-- C6, amended: `marshallValue` applied to an `Identifier` node named `x`
returns the value of `x` in the environment whenever `x` is bound to a truthy
value, and the string `x` itself otherwise: when `x` is not bound, and when `x`
is bound to a falsy value. -/
theorem marshallValue_identifier_truthy (node : Val) (x : String) (env : Env)
    (h : IsIdentifier node x) :
    (truthy (mapGet env (str x)) = true →
      marshallValue node env = some (mapGet env (str x))) ∧
    (truthy (mapGet env (str x)) = false → marshallValue node env = some (str x)) ∧
    (mapHas env (str x) = false → marshallValue node env = some (str x)) := by
  have key := marshallValue_identifier node (str x) env h.1 h.2
  refine ⟨fun ht => by rw [key, if_pos ht], fun hf => by rw [key, if_neg (by simp [hf])], ?_⟩
  intro hb
  have hu : mapGet env (str x) = undef := by
    unfold mapHas at hb
    unfold mapGet
    cases hfind : mapFind env (str x) with
    | none => rfl
    | some v => rw [hfind] at hb; cases hb
  rw [key, hu]
  rfl

/-- C6, amended, at the identifier `x` under an environment that binds `x` to
the string `Z`. -/
theorem marshallValue_identifier_truthy_witness :
    marshallValue (identifier "x") [(str "x", str "Z")] = some (str "Z") :=
  (marshallValue_identifier_truthy (identifier "x") "x" [(str "x", str "Z")] ⟨rfl, rfl⟩).1 rfl

theorem marshallValue_member_mapped (node objectNode propertyNode : Val) (o p : String)
    (env : Env) (hnode : IsMemberExpression node objectNode propertyNode)
    (ho : IsIdentifier objectNode o) (hp : IsIdentifier propertyNode p) :
    marshallValue node env =
      if truthy (mapGet env (str p)) && !(strictEq (mapGet env (str p)) (str p))
      then some (mapGet env (str p)) else some (str (o ++ "." ++ p)) := by
  rw [marshallValue_member node objectNode propertyNode env hnode.1 hnode.2.1 hnode.2.2,
    marshallValue_identifier_empty hp, marshallValue_identifier_empty ho,
    marshallValue_identifier propertyNode (str p) env hp.1 hp.2]
  cases ht : truthy (mapGet env (str p))
  · simp [strictEq_self, toStr]
  · cases he : strictEq (mapGet env (str p)) (str p)
    · simp [he]
    · simp [he, toStr]

/-- C7, as stated, fails: under an environment that binds `y` to `0`, which
differs from the text `y`, the member access `obj.y` evaluates to the string
`obj.y`, not to the bound value. -/
theorem marshallValue_member_counterexample :
    mapGet [(str "y", num 0)] (str "y") = num 0 ∧
    marshallValue objDotY [(str "y", num 0)]
      = some (str "obj.y") ∧
    marshallValue objDotY [(str "y", num 0)]
      ≠ some (num 0) := by
  have h : marshallValue objDotY [(str "y", num 0)] = some (str "obj.y") :=
    (marshallValue_member_mapped objDotY (identifier "obj") (identifier "y") "obj" "y" _
      ⟨rfl, rfl, rfl⟩ ⟨rfl, rfl⟩ ⟨rfl, rfl⟩).trans rfl
  refine ⟨rfl, h, ?_⟩
  rw [h]
  intro h'
  cases h'

/-- C7, amended: for a member access `o.p` whose object and property are
identifiers, under an environment that binds `p` to a truthy value different
from the text `p`, `marshallValue` returns that value alone, whatever `o` is;
under an environment where `p` has no truthy value, and under the empty
environment, it returns the string `o.p`. -/
theorem marshallValue_member_identifiers (node objectNode propertyNode : Val) (o p : String)
    (env : Env) (hnode : IsMemberExpression node objectNode propertyNode)
    (ho : IsIdentifier objectNode o) (hp : IsIdentifier propertyNode p) :
    (truthy (mapGet env (str p)) = true → mapGet env (str p) ≠ str p →
      marshallValue node env = some (mapGet env (str p))) ∧
    (truthy (mapGet env (str p)) = false →
      marshallValue node env = some (str (o ++ "." ++ p))) ∧
    marshallValue node EMPTY_MAP = some (str (o ++ "." ++ p)) := by
  refine ⟨?_, ?_, ?_⟩
  · intro ht hne
    have he : strictEq (mapGet env (str p)) (str p) = false := by
      cases h : strictEq (mapGet env (str p)) (str p)
      · rfl
      · exact absurd ((strictEq_iff _ _).1 h) hne
    rw [marshallValue_member_mapped node objectNode propertyNode o p env hnode ho hp]
    simp [ht, he]
  · intro hf
    rw [marshallValue_member_mapped node objectNode propertyNode o p env hnode ho hp]
    simp [hf]
  · rw [marshallValue_member_mapped node objectNode propertyNode o p EMPTY_MAP hnode ho hp]
    simp [mapGet_empty, truthy]

/-- C7, amended, at the member access `obj.y`: under the environment that binds
`y` to the string `Z` the result is `Z`, under the empty environment it is
`obj.y`. -/
theorem marshallValue_member_identifiers_witness :
    marshallValue objDotY [(str "y", str "Z")] = some (str "Z") ∧
    marshallValue objDotY EMPTY_MAP = some (str "obj.y") :=
  ⟨(marshallValue_member_identifiers objDotY (identifier "obj") (identifier "y") "obj" "y"
      [(str "y", str "Z")] ⟨rfl, rfl, rfl⟩ ⟨rfl, rfl⟩ ⟨rfl, rfl⟩).1 rfl
      (fun h => absurd (Val.str.inj h) (by decide)),
   (marshallValue_member_identifiers objDotY (identifier "obj") (identifier "y") "obj" "y"
      [(str "y", str "Z")] ⟨rfl, rfl, rfl⟩ ⟨rfl, rfl⟩ ⟨rfl, rfl⟩).2.2⟩

/-- C9: for a call node, `marshallValue` returns the callee evaluated under the
empty environment when there are no arguments, and otherwise the text of that
value followed by the parenthesised arguments, each evaluated under the given
environment and joined by a comma and a space; a callee that is an identifier
evaluates to its own name, whatever the environment binds. -/
theorem marshallValue_call_text (node callee : Val) (args : List Val) (env : Env)
    (c : Val) (vs : List Val) (hnode : IsCallExpression node callee args)
    (hc : marshallValue callee EMPTY_MAP = some c)
    (hargs : List.Forall₂ (fun a v => marshallValue a env = some v) args vs) :
    (args = [] → marshallValue node env = some c) ∧
    (args ≠ [] →
      marshallValue node env = some (str (toStr c ++ "(" ++ join vs ", " ++ ")"))) ∧
    (∀ f, IsIdentifier callee f → c = str f) := by
  have key := marshallValue_call node callee args env hnode.1 hnode.2.1 hnode.2.2
  rw [hc, allSome_map_of_forall₂ hargs] at key
  refine ⟨?_, ?_, ?_⟩
  · intro h
    rw [key, h]
    rfl
  · intro h
    rw [key]
    simp only [gt_iff_lt, List.length_pos.2 h, if_true]
  · intro f hf
    rw [marshallValue_identifier_empty hf] at hc
    exact (Option.some.inj hc).symm

/-- C9 at the call `f(a, y)` under an environment that binds `f` and `y`: the
callee name is kept, the argument `y` is substituted. -/
theorem marshallValue_call_text_witness :
    marshallValue callFAY [(str "f", str "G"), (str "y", str "Z")] = some (str "f(a, Z)") :=
  (marshallValue_call_text callFAY (identifier "f") [identifier "a", identifier "y"]
    [(str "f", str "G"), (str "y", str "Z")] (str "f") [str "a", str "Z"]
    ⟨rfl, rfl, rfl⟩
    (marshallValue_identifier_empty ⟨rfl, rfl⟩)
    (List.Forall₂.cons ((marshallValue_identifier (identifier "a") (str "a") _ rfl rfl).trans rfl)
      (List.Forall₂.cons
        ((marshallValue_identifier (identifier "y") (str "y") _ rfl rfl).trans rfl)
        List.Forall₂.nil))).2.1 (by simp)

theorem propertyText_of_yields {env : Env} {node : Val} {name : Val} {r : Val}
    (h : PropertyYields env node name r) :
    propertyText env node = some (str (toStr name ++ ": " ++ toStr r)) := by
  obtain ⟨key, value, h1, h2, h3, h4⟩ := h
  simp [propertyText, h1, h2, h3, h4]

theorem allSome_propertyText {env : Env} {props : List Val} {entries : List (Val × Val)}
    (hprops : List.Forall₂ (fun p kr => PropertyYields env p kr.1 kr.2) props entries) :
    allSome (props.map (propertyText env))
      = some ((entries.map (fun kr => toStr kr.1 ++ ": " ++ toStr kr.2)).map str) := by
  apply allSome_map_of_forall₂
  induction hprops with
  | nil => exact List.Forall₂.nil
  | cons h _ ih => exact List.Forall₂.cons (propertyText_of_yields h) ih

theorem marshallValue_object_entries (node : Val) (props : List Val)
    (entries : List (Val × Val)) (env : Env) (hnode : IsObjectExpression node props)
    (hprops : List.Forall₂ (fun p kr => PropertyYields env p kr.1 kr.2) props entries) :
    marshallValue node env = some (str ("\x7b " ++
      ", ".intercalate (entries.map (fun kr => toStr kr.1 ++ ": " ++ toStr kr.2)) ++ " \x7d")) := by
  rw [marshallValue_object node props env hnode.1 hnode.2, allSome_propertyText hprops]
  simp only [join, toStrElems_map_str]

/-- C10, as stated, fails: the key of the object literal `{ 'a-b': 1 }` is not
copied, the text `undefined` takes its place, also under an environment that
binds `a-b`. -/
theorem marshallValue_object_counterexample :
    marshallValue objectQuotedKey [(str "a-b", str "Z")]
      = some (str "\x7b undefined: 1 \x7d") ∧
    marshallValue objectQuotedKey [(str "a-b", str "Z")] ≠ some (str "\x7b a-b: 1 \x7d") := by
  have h : marshallValue objectQuotedKey [(str "a-b", str "Z")]
      = some (str "\x7b undefined: 1 \x7d") :=
    (marshallValue_object_entries objectQuotedKey
      [property (literal (str "a-b")) (literal (num 1))] [(undef, num 1)] _ ⟨rfl, rfl⟩
      (List.Forall₂.cons
        ⟨literal (str "a-b"), literal (num 1), rfl, rfl, rfl,
          (marshallValue_literal (literal (num 1)) _ rfl).trans rfl⟩
        List.Forall₂.nil)).trans rfl
  refine ⟨h, ?_⟩
  rw [h]
  intro he
  exact absurd (Val.str.inj (Option.some.inj he)) (by decide)

/-- C10, amended: for an object-literal node of which every property has a key,
holding `name` in its field `name` (`undefined` when it has none), and a value
that evaluates to `r` under the environment, `marshallValue` returns an opening
brace and a space, the entries `name: r` (both rendered as text) joined by a
comma and a space, and a space and a closing brace.  The text of an identifier
key is the key itself, whatever the environment binds; the text of a key that
has no field `name`, as a quoted or numeric key, is `undefined`. -/
theorem marshallValue_object_text (node : Val) (props : List Val)
    (entries : List (Val × Val)) (env : Env) (hnode : IsObjectExpression node props)
    (hprops : List.Forall₂ (fun p kr => PropertyYields env p kr.1 kr.2) props entries) :
    marshallValue node env = some (str ("\x7b " ++
      ", ".intercalate (entries.map (fun kr => toStr kr.1 ++ ": " ++ toStr kr.2)) ++ " \x7d")) ∧
    (∀ p name r, PropertyYields env p name r → ∀ key, getProp p "key" = some key →
      (∀ k, IsIdentifier key k → toStr name = k) ∧
      (∀ ps, key = obj ps → ps.lookup "name" = none → toStr name = "undefined")) := by
  refine ⟨marshallValue_object_entries node props entries env hnode hprops, ?_⟩
  intro p name r hp key hkey
  obtain ⟨key', value, h1, h2, _, _⟩ := hp
  rw [hkey] at h1
  cases h1
  refine ⟨fun k hk => ?_, fun ps hps hl => ?_⟩
  · rw [hk.2] at h2
    cases h2
    rfl
  · subst hps
    simp only [getProp, hl, Option.getD_none, Option.some.injEq] at h2
    subst h2
    rfl

/-- C10, amended, at the object literal `{ y: y, k: 'v', 'a-b': y }` under an
environment that binds `y`, `k` and `a-b`: the keys `y` and `k` are kept, the
quoted key gives `undefined`, the value `y` is substituted. -/
theorem marshallValue_object_text_witness :
    marshallValue objectYK [(str "y", str "Z"), (str "k", str "K"), (str "a-b", str "W")]
      = some (str "\x7b y: Z, k: v, undefined: Z \x7d") :=
  (marshallValue_object_text objectYK
    [property (identifier "y") (identifier "y"), property (identifier "k") (literal (str "v")),
      property (literal (str "a-b")) (identifier "y")]
    [(str "y", str "Z"), (str "k", str "v"), (undef, str "Z")]
    [(str "y", str "Z"), (str "k", str "K"), (str "a-b", str "W")] ⟨rfl, rfl⟩
    (List.Forall₂.cons
      ⟨identifier "y", identifier "y", rfl, rfl, rfl,
        (marshallValue_identifier (identifier "y") (str "y") _ rfl rfl).trans rfl⟩
      (List.Forall₂.cons
        ⟨identifier "k", literal (str "v"), rfl, rfl, rfl,
          (marshallValue_literal (literal (str "v")) _ rfl).trans rfl⟩
        (List.Forall₂.cons
          ⟨literal (str "a-b"), identifier "y", rfl, rfl, rfl,
            (marshallValue_identifier (identifier "y") (str "y") _ rfl rfl).trans rfl⟩
          List.Forall₂.nil)))).1.trans rfl

/-! ## `parseVariables` -/

theorem sameValueZero_eq {a b : Val} (h : sameValueZero a b = true) : a = b := by
  simp only [sameValueZero, Bool.and_eq_true] at h
  exact (strictEq_iff a b).1 h.2

theorem sameValueZero_str (a b : String) : sameValueZero (str a) (str b) = decide (a = b) := by
  by_cases h : a = b <;> simp [sameValueZero, isObject, strictEq, Val.beq, h]

theorem mapFind_cons (k v key : Val) (m : Env) :
    mapFind ((k, v) :: m) key = if sameValueZero k key then some v else mapFind m key := by
  cases h : sameValueZero k key <;> simp [mapFind, List.find?, h]

theorem mapFind_mapSet (m : Env) (k x : String) (v : Val) :
    mapFind (mapSet m (str k) v) (str x) = if k = x then some v else mapFind m (str x) := by
  induction m with
  | nil =>
    simp only [mapSet, mapFind_cons, sameValueZero_str]
    by_cases hkx : k = x <;> simp [hkx]
  | cons e m ih =>
    obtain ⟨k', v'⟩ := e
    simp only [mapSet]
    cases hk : sameValueZero k' (str k)
    · simp only [Bool.false_eq_true, if_false, mapFind_cons, ih]
      by_cases hkx : k = x
      · subst hkx
        simp [hk]
      · simp [hkx]
    · have hk' : k' = str k := sameValueZero_eq hk
      subst hk'
      simp only [if_true, mapFind_cons, sameValueZero_str]
      by_cases hkx : k = x <;> simp [hkx]

theorem mapFind_bindAll (bs : List (String × Val)) (x : String) :
    ∀ m : Env, mapFind (bindAll m bs) (str x) =
      match lastBinding bs x with
      | some w => some w
      | none => mapFind m (str x) := by
  induction bs with
  | nil => intro m; rfl
  | cons b bs ih =>
    obtain ⟨y, v⟩ := b
    intro m
    have hstep : bindAll m ((y, v) :: bs)
        = bindAll (if truthy v then mapSet m (str y) v else m) bs := rfl
    rw [hstep, ih]
    simp only [lastBinding]
    cases hl : lastBinding bs x with
    | some w => rfl
    | none =>
      cases ht : truthy v
      · simp
      · by_cases hyx : y = x
        · simp [mapFind_mapSet, hyx]
        · simp [mapFind_mapSet, hyx]

theorem bindAll_append (m : Env) (bs₁ bs₂ : List (String × Val)) :
    bindAll m (bs₁ ++ bs₂) = bindAll (bindAll m bs₁) bs₂ := by
  simp [bindAll, List.foldl_append]

theorem foldlM_declares {ds : List Val} {bs : List (String × Val)} (h : Declares ds bs) :
    ∀ m : Env, ds.foldlM parseDeclaration m = some (bindAll m bs) := by
  induction h with
  | nil => intro m; rfl
  | @skip d i ds bs hi ht _ ih =>
    intro m
    rw [List.foldlM_cons]
    have : parseDeclaration m d = some m := by simp [parseDeclaration, hi, ht]
    rw [this]
    exact ih m
  | @init d i id v x ds bs hi ht hv hid hname _ ih =>
    intro m
    rw [List.foldlM_cons]
    have : parseDeclaration m d = some (if truthy v then mapSet m (str x) v else m) := by
      cases htv : truthy v <;> simp [parseDeclaration, hi, ht, hv, hid, hname, htv]
    rw [this]
    exact ih _

theorem isObject_of_type {s t : Val} (ht : t ≠ undef) (h : getProp s "type" = some t) :
    ∃ ps, s = obj ps ∧ ("type", t) ∈ ps := by
  cases s with
  | obj ps =>
    refine ⟨ps, rfl, ?_⟩
    simp only [getProp, Option.some.injEq] at h
    cases hl : ps.lookup "type" with
    | none => rw [hl] at h; exact absurd h.symm ht
    | some w =>
      rw [hl] at h
      simp only [Option.getD_some] at h
      subst h
      exact mem_of_lookup hl
  | undef => simp [getProp] at h
  | null => simp [getProp] at h
  | _ => simp [getProp] at h; exact absurd h.symm ht

theorem match_variableDeclaration {s : Val}
    (h : getProp s "type" = some (str "VariableDeclaration")) :
    match_ s (obj [("type", str "VariableDeclaration")]) = true ∧
      isObject s = true ∧ isArray s = false := by
  obtain ⟨ps, rfl, hmem⟩ := isObject_of_type (by intro h; cases h) h
  refine ⟨?_, rfl, rfl⟩
  rw [match_fields (obj ps) _ rfl]
  refine ⟨rfl, ?_⟩
  intro p hp
  simp only [fieldValues, List.map, List.mem_singleton] at hp
  subst hp
  exact ⟨str "VariableDeclaration", List.mem_map.2 ⟨_, hmem, rfl⟩, by simp [match_, strictEq_self]⟩

theorem topLevel_objects {body : List Val} {bs : List (String × Val)} (h : TopLevel body bs) :
    ∀ e ∈ body, isObject e = true ∧ isArray e = false := by
  induction h with
  | nil => intro e he; cases he
  | other ho ha _ _ ih =>
    intro e he
    rcases List.mem_cons.1 he with rfl | he
    · exact ⟨ho, ha⟩
    · exact ih e he
  | declaration ht _ _ _ ih =>
    intro e he
    rcases List.mem_cons.1 he with rfl | he
    · exact (match_variableDeclaration ht).2
    · exact ih e he

theorem match_object_scalar (e c : Val) (he : isObject e = true) (hc : isObject c = false) :
    match_ e c = false := by
  cases h : match_ e c
  · rfl
  · have := ((match_fields e c he).1 h).1
    rw [hc] at this
    cases this

theorem topLevel_not_match {body : List Val} {bs : List (String × Val)}
    (h : TopLevel body bs) :
    match_ (arr body) (obj [("type", str "VariableDeclaration")]) = false := by
  cases hm : match_ (arr body) (obj [("type", str "VariableDeclaration")])
  · rfl
  · obtain ⟨_, hall⟩ := (match_fields (arr body) _ rfl).1 hm
    obtain ⟨n, hn, hmn⟩ := hall (str "VariableDeclaration") (by simp [fieldValues])
    have := match_object_scalar n (str "VariableDeclaration")
      (topLevel_objects h n hn).1 rfl
    rw [this] at hmn
    cases hmn

theorem foldlM_topLevel {body : List Val} {bs : List (String × Val)} (h : TopLevel body bs) :
    ∀ m : Env,
      (body.filter (fun e => match_ e (obj [("type", str "VariableDeclaration")]))).foldlM
        parseVariable m = some (bindAll m bs) := by
  induction h with
  | nil => intro m; rfl
  | other _ _ hm _ ih =>
    intro m
    rw [List.filter_cons_of_neg (by simp [hm])]
    exact ih m
  | @declaration s ds bs₁ ss bs₂ ht hd hds _ ih =>
    intro m
    rw [List.filter_cons_of_pos (by simp [(match_variableDeclaration ht).1]),
      List.foldlM_cons]
    have : parseVariable m s = some (bindAll m bs₁) := by
      simp only [parseVariable, hd]
      exact foldlM_declares hds m
    rw [this, bindAll_append]
    exact ih _

theorem parseVariables_eq_bindAll {body : List Val} {bs : List (String × Val)}
    (h : TopLevel body bs) : parseVariables (arr body) = some (bindAll [] bs) := by
  unfold parseVariables findVariables
  rw [find_array_eq_filter body _ (topLevel_not_match h)
    (fun e he ha => by rw [(topLevel_objects h e he).2] at ha; cases ha)]
  exact foldlM_topLevel h []

theorem topLevel_constXZero : TopLevel constXZero ([("x", num 0)] ++ []) :=
  @TopLevel.declaration
    (variableDeclaration [variableDeclarator (identifier "x") (literal (num 0))])
    [variableDeclarator (identifier "x") (literal (num 0))] [("x", num 0)] [] []
    rfl rfl
    (@Declares.init (variableDeclarator (identifier "x") (literal (num 0))) (literal (num 0))
      (identifier "x") (num 0) "x" [] [] rfl rfl
      ((marshallValue_literal (literal (num 0)) _ rfl).trans rfl) rfl rfl Declares.nil)
    TopLevel.nil

theorem topLevel_constXTwice :
    TopLevel constXTwice ([("x", str "a")] ++ ([("x", str "b")] ++ [])) :=
  @TopLevel.declaration
    (variableDeclaration [variableDeclarator (identifier "x") (literal (str "a")),
      variableDeclarator (identifier "y") null])
    [variableDeclarator (identifier "x") (literal (str "a")),
      variableDeclarator (identifier "y") null] [("x", str "a")] _ _
    rfl rfl
    (@Declares.init (variableDeclarator (identifier "x") (literal (str "a")))
      (literal (str "a")) (identifier "x") (str "a") "x" _ [] rfl rfl
      ((marshallValue_literal (literal (str "a")) _ rfl).trans rfl) rfl rfl
      (@Declares.skip (variableDeclarator (identifier "y") null) null [] [] rfl rfl
        Declares.nil))
    (TopLevel.other rfl rfl rfl
      (@TopLevel.declaration
        (variableDeclaration [variableDeclarator (identifier "x") (literal (str "b"))])
        [variableDeclarator (identifier "x") (literal (str "b"))] [("x", str "b")] [] []
        rfl rfl
        (@Declares.init (variableDeclarator (identifier "x") (literal (str "b")))
          (literal (str "b")) (identifier "x") (str "b") "x" [] [] rfl rfl
          ((marshallValue_literal (literal (str "b")) _ rfl).trans rfl) rfl rfl Declares.nil)
        TopLevel.nil))

/-- C8, as stated, fails: the initializer of `const x = 0` evaluates to `0`,
which is not `undefined`, yet `parseVariables` leaves `x` out of the
environment. -/
theorem parseVariables_counterexample :
    marshallValue (literal (num 0)) EMPTY_MAP = some (num 0) ∧
    parseVariables (arr constXZero) = some EMPTY_MAP :=
  ⟨(marshallValue_literal (literal (num 0)) _ rfl).trans rfl,
    (parseVariables_eq_bindAll topLevel_constXZero).trans rfl⟩

/-- C8, amended: `parseVariables` applied to a statement list returns an
environment that binds a name exactly when a declarator of a top-level variable
declaration gives it an initializer whose value under the empty environment is
truthy, and then binds it to the last such value; a name without initializer,
or whose initializers all evaluate to a falsy value, is left out. -/
theorem parseVariables_binds (body : List Val) (bs : List (String × Val))
    (h : TopLevel body bs) :
    ∃ env, parseVariables (arr body) = some env ∧
      ∀ x : String, mapFind env (str x) = lastBinding bs x := by
  refine ⟨bindAll [] bs, parseVariables_eq_bindAll h, ?_⟩
  intro x
  rw [mapFind_bindAll]
  cases lastBinding bs x <;> rfl

/-- C8, amended, at the statements `const x = 'a', y; 'use strict'; const x =
'b'`: `x` is bound to its last value and `y` is not bound. -/
theorem parseVariables_binds_witness :
    ∃ env, parseVariables (arr constXTwice) = some env ∧
      mapFind env (str "x") = some (str "b") ∧ mapFind env (str "y") = none :=
  match parseVariables_binds constXTwice _ topLevel_constXTwice with
  | ⟨env, h, hx⟩ => ⟨env, h, (hx "x").trans rfl, (hx "y").trans rfl⟩

/-! ## Literals -/

/-- C11: for a `Literal` node, `marshallValue` returns the value of the literal
under every environment, so the results under two environments are equal. -/
theorem marshallValue_literal_env (node value : Val) (env₁ env₂ : Env)
    (h : IsLiteral node value) :
    marshallValue node env₁ = some value ∧ marshallValue node env₂ = some value ∧
      marshallValue node env₁ = marshallValue node env₂ := by
  have h1 : ∀ env, marshallValue node env = some value := fun env => by
    rw [marshallValue_literal node env h.1, h.2]
  exact ⟨h1 env₁, h1 env₂, by rw [h1 env₁, h1 env₂]⟩

/-- C11 at the literal `'v'`, under the empty environment and under an
environment that binds `v`. -/
theorem marshallValue_literal_env_witness :
    marshallValue (literal (str "v")) EMPTY_MAP = some (str "v") ∧
    marshallValue (literal (str "v")) [(str "v", str "Z")] = some (str "v") ∧
    marshallValue (literal (str "v")) EMPTY_MAP
      = marshallValue (literal (str "v")) [(str "v", str "Z")] :=
  marshallValue_literal_env (literal (str "v")) (str "v") EMPTY_MAP [(str "v", str "Z")]
    ⟨rfl, rfl⟩

/-! ## `find`: what it returns -/

theorem mem_findElems {es : List Val} {c : Val} {o : Options} {v : Val}
    (h : v ∈ findElems es c o) : ∃ e ∈ es, v ∈ find e c o := by
  rw [findElems_eq] at h
  exact List.mem_flatMap.1 h

theorem mem_findProps {ps : List (String × Val)} {c : Val} {o : Options} {v : Val}
    (h : v ∈ findProps ps c o) : ∃ e ∈ fieldValues (obj ps), v ∈ find e c o := by
  rw [findProps_eq] at h
  exact List.mem_flatMap.1 h

theorem mem_find {node c : Val} {o : Options} {v : Val} (h : v ∈ find node c o) :
    (v = node ∧ match_ node c = true) ∨ ∃ e ∈ fieldValues node, v ∈ find e c o := by
  cases hm : match_ node c
  · right
    cases node <;> simp only [find, hm, Bool.false_eq_true, if_false] at h <;>
      try (exact absurd h (List.not_mem_nil _))
    · rename_i ps
      split at h
      · exact mem_findProps h
      · exact absurd h (List.not_mem_nil _)
    · rename_i es
      split at h
      · exact mem_findElems h
      · split at h
        · exact mem_findElems h
        · exact absurd h (List.not_mem_nil _)
  · left
    rw [find_of_match node c o hm] at h
    exact ⟨List.mem_singleton.1 h, rfl⟩

theorem find_matches_bounded (c : Val) (o : Options) :
    ∀ (k : Nat) (node v : Val), node.size < k → v ∈ find node c o → match_ v c = true := by
  intro k
  induction k with
  | zero => intro node v h; omega
  | succ k ih =>
    intro node v hk hv
    rcases mem_find hv with ⟨rfl, hm⟩ | ⟨e, he, hve⟩
    · exact hm
    · exact ih e v (by have := fieldValues_size he; omega) hve

theorem find_array_through_bounded (c : Val) :
    ∀ (k : Nat) (node v : Val), node.size < k → v ∈ find node c { array := true } →
      ThroughArrays node v := by
  intro k
  induction k with
  | zero => intro node v h; omega
  | succ k ih =>
    intro node v hk hv
    cases hm : match_ node c
    · cases node <;> simp only [find, hm, Bool.false_eq_true, if_false, if_true] at hv <;>
        try (exact absurd hv (List.not_mem_nil _))
      rename_i es
      obtain ⟨e, he, hve⟩ := mem_findElems hv
      exact ThroughArrays.elem he
        (ih e v (by have := mem_size he; simp only [Val.size] at hk; omega) hve)
    · rw [find_of_match node c _ hm] at hv
      rw [List.mem_singleton.1 hv]
      exact ThroughArrays.self node

/-- C19, as stated, fails: in array mode `find` applied to the sequence `[[t]]`
returns `t`, which sits in the nested sequence and is not a top-level element. -/
theorem find_array_nested_counterexample :
    find (arr [arr [obj [("type", str "T")]]]) (obj [("type", str "T")]) { array := true }
      = [obj [("type", str "T")]] ∧
    obj [("type", str "T")] ∉ [arr [obj [("type", str "T")]]] := by
  refine ⟨rfl, ?_⟩
  intro h
  rw [List.mem_singleton] at h
  cases h

/-- C19, amended: in array mode every node that `find` returns is the sequence
itself, one of its elements, or an element of a sequence nested in it at any
depth, and is never reached through a field of an object; when the sequence
does not itself match and none of its elements is a sequence, every node
returned is a top-level element. -/
theorem find_array_top_level (es : List Val) (criteria : Val) :
    (∀ v ∈ find (arr es) criteria { array := true }, ThroughArrays (arr es) v) ∧
    (match_ (arr es) criteria = false → (∀ e ∈ es, isArray e = false) →
      ∀ v ∈ find (arr es) criteria { array := true }, v ∈ es) := by
  refine ⟨fun v hv =>
    find_array_through_bounded criteria ((arr es).size + 1) (arr es) v (Nat.lt_succ_self _) hv,
    ?_⟩
  intro hseq hflat v hv
  rw [find_array_eq_filter es criteria hseq
    (fun e he ha => by rw [hflat e he] at ha; cases ha)] at hv
  exact (List.mem_filter.1 hv).1

/-- C19, amended, at a sequence of two objects of which the second matches and
the first holds a matching node in a field. -/
theorem find_array_top_level_witness :
    ∀ v ∈ find (arr [obj [("type", str "U"), ("body", obj [("type", str "T")])],
        obj [("type", str "T")]]) (obj [("type", str "T")]) { array := true },
      v ∈ [obj [("type", str "U"), ("body", obj [("type", str "T")])],
        obj [("type", str "T")]] :=
  (find_array_top_level [obj [("type", str "U"), ("body", obj [("type", str "T")])],
    obj [("type", str "T")]] (obj [("type", str "T")])).2 rfl
    (by intro e he; simp at he; rcases he with rfl | rfl <;> rfl)

/-- C20: whatever the options, every node that `find` returns satisfies `match`
with the pattern. -/
theorem find_matches (node criteria : Val) (options : Options) :
    ∀ v ∈ find node criteria options, match_ v criteria = true :=
  fun v hv =>
    find_matches_bounded criteria options (node.size + 1) node v (Nat.lt_succ_self _) hv

/-- C20 at a search in recursive mode that returns two nodes. -/
theorem find_matches_witness :
    find (obj [("type", str "B"), ("body", arr [obj [("type", str "R"), ("id", num 1)],
        obj [("type", str "R"), ("id", num 2)]])]) (obj [("type", str "R")])
        { recursive := true }
      = [obj [("type", str "R"), ("id", num 1)], obj [("type", str "R"), ("id", num 2)]] ∧
    match_ (obj [("type", str "R"), ("id", num 1)]) (obj [("type", str "R")]) = true ∧
    match_ (obj [("type", str "R"), ("id", num 2)]) (obj [("type", str "R")]) = true :=
  ⟨rfl,
   find_matches (obj [("type", str "B"), ("body", arr [obj [("type", str "R"), ("id", num 1)],
        obj [("type", str "R"), ("id", num 2)]])]) (obj [("type", str "R")])
        { recursive := true } _ (List.mem_cons_self _ _),
   find_matches (obj [("type", str "B"), ("body", arr [obj [("type", str "R"), ("id", num 1)],
        obj [("type", str "R"), ("id", num 2)]])]) (obj [("type", str "R")])
        { recursive := true } _ (List.mem_cons_of_mem _ (List.mem_cons_self _ _))⟩

/-! ## `marshallAuthentication` -/

theorem foldl_dedupe (l : List String) :
    ∀ acc : List String,
      l.foldl (fun deduped token =>
          if deduped.contains token then deduped else deduped ++ [token]) acc
        = acc ++ (firstOccurrences l).filter (fun t => !acc.contains t) := by
  induction l with
  | nil => intro acc; simp [firstOccurrences]
  | cons x xs ih =>
    intro acc
    rw [List.foldl_cons]
    by_cases hx : x ∈ acc
    · have hc : acc.contains x = true := by simpa using hx
      rw [if_pos hc, ih acc]
      congr 1
      simp only [firstOccurrences, List.filter_cons, hc, Bool.not_true, Bool.false_eq_true,
        if_false, List.filter_filter]
      apply List.filter_congr
      intro t _
      by_cases ht : t ∈ acc
      · simp [ht]
      · have : t ≠ x := fun h => ht (h ▸ hx)
        simp [ht, this]
    · have hc : acc.contains x = false := by simpa using hx
      rw [if_neg (by simpa using hx), ih (acc ++ [x])]
      simp only [firstOccurrences, List.filter_cons, hc, Bool.not_false, if_true,
        List.filter_filter, List.append_assoc, List.singleton_append]
      congr 2
      apply List.filter_congr
      intro t _
      by_cases ht : t ∈ acc <;> by_cases htx : t = x <;> simp [ht, htx]

theorem dedupe_eq_firstOccurrences (l : List String) : dedupe l = firstOccurrences l := by
  unfold dedupe
  rw [foldl_dedupe l []]
  simp

theorem mem_firstOccurrences (l : List String) (t : String) :
    t ∈ firstOccurrences l ↔ t ∈ l := by
  induction l with
  | nil => simp [firstOccurrences]
  | cons x xs ih =>
    simp only [firstOccurrences, List.mem_cons, List.mem_filter, ih]
    by_cases h : t = x <;> simp [h]

theorem firstOccurrences_nodup (l : List String) : (firstOccurrences l).Nodup := by
  induction l with
  | nil => simp [firstOccurrences]
  | cons x xs ih =>
    simp only [firstOccurrences, List.nodup_cons, List.mem_filter]
    exact ⟨by simp, ih.filter _⟩

theorem marshallToken_session (t : String) (h : startsWith t "sessionToken" = true) :
    marshallToken t = "sessionToken" := by
  simp [marshallToken, h]

theorem not_session_of_keyFetch (t : String) (h : startsWith t "keyFetchToken" = true) :
    startsWith t "sessionToken" = false := by
  have hk : "keyFetchToken".data = 'k' :: "eyFetchToken".data := by decide
  have hs : "sessionToken".data = 's' :: "essionToken".data := by decide
  unfold startsWith at h ⊢
  rw [hk] at h
  rw [hs]
  cases hd : t.data with
  | nil => rw [hd] at h; simp [List.isPrefixOf] at h
  | cons c cs =>
    rw [hd] at h
    simp only [List.isPrefixOf, Bool.and_eq_true, beq_iff_eq] at h
    have hc : c = 'k' := h.1.symm
    subst hc
    simp [List.isPrefixOf]

theorem marshallToken_keyFetch (t : String) (h : startsWith t "keyFetchToken" = true) :
    marshallToken t = "keyFetchToken" := by
  simp [marshallToken, h, not_session_of_keyFetch t h]

theorem marshallToken_other (t : String) (h₁ : startsWith t "sessionToken" = false)
    (h₂ : startsWith t "keyFetchToken" = false) : marshallToken t = t := by
  simp [marshallToken, h₁, h₂]

theorem insertSorted_oauth (l : List String) :
    insertSorted oauthFirst "oauthToken" l = "oauthToken" :: l := by
  cases l <;> simp [insertSorted, oauthFirst]

theorem insertSorted_other (x : String) (hx : x ≠ "oauthToken") (l : List String)
    (hl : ∀ y ∈ l, y ≠ "oauthToken") : insertSorted oauthFirst x l = x :: l := by
  cases l with
  | nil => rfl
  | cons y ys =>
    have hy : y ≠ "oauthToken" := hl y (List.mem_cons_self _ _)
    simp [insertSorted, oauthFirst, hx, hy]

theorem insertSorted_after (x : String) (hx : x ≠ "oauthToken") (l : List String)
    (hl : ∀ y ∈ l, y ≠ "oauthToken") :
    insertSorted oauthFirst x ("oauthToken" :: l) = "oauthToken" :: x :: l := by
  simp [insertSorted, oauthFirst, hx, insertSorted_other x hx l hl]

theorem filter_ne_oauth (l : List String) :
    ∀ y ∈ l.filter (fun t => t != "oauthToken"), y ≠ "oauthToken" := by
  intro y hy
  simpa using (List.mem_filter.1 hy).2

theorem filter_ne_of_not_mem (l : List String) (h : "oauthToken" ∉ l) :
    l.filter (fun t => t != "oauthToken") = l := by
  apply List.filter_eq_self.2
  intro a ha
  have : a ≠ "oauthToken" := fun e => h (e ▸ ha)
  simpa using this

theorem sortWith_oauthFirst (l : List String) (hn : l.Nodup) :
    sortWith oauthFirst l =
      (if "oauthToken" ∈ l then ["oauthToken"] else []) ++
        l.filter (fun t => t != "oauthToken") := by
  induction l with
  | nil => rfl
  | cons x xs ih =>
    rw [List.nodup_cons] at hn
    simp only [sortWith]
    rw [ih hn.2]
    by_cases hx : x = "oauthToken"
    · subst hx
      simp only [if_neg hn.1, List.nil_append, List.mem_cons, true_or, if_true]
      rw [insertSorted_oauth, filter_ne_of_not_mem xs hn.1]
      simp [List.filter_cons, filter_ne_of_not_mem xs hn.1]
    · have hx' : ¬ "oauthToken" = x := fun e => hx e.symm
      by_cases ho : "oauthToken" ∈ xs
      · simp only [if_pos ho, List.mem_cons, ho, or_true, if_true, List.singleton_append]
        rw [insertSorted_after x hx _ (filter_ne_oauth xs)]
        simp [List.filter_cons, hx]
      · simp only [if_neg ho, List.nil_append, List.mem_cons, hx', ho, or_self, if_false]
        rw [insertSorted_other x hx _ (filter_ne_oauth xs)]
        simp [List.filter_cons, hx]

theorem intercalate_go_eq (sep : String) (l : List String) :
    ∀ acc : String, String.intercalate.go acc sep l = l.foldl (fun s t => s ++ sep ++ t) acc := by
  induction l with
  | nil => intro acc; rfl
  | cons a l ih => intro acc; simp only [String.intercalate.go, List.foldl_cons]; exact ih _

theorem foldl_sep_append (sep init : String) (l : List String) :
    ∀ acc : String, l.foldl (fun s t => s ++ sep ++ t) (init ++ acc)
      = init ++ l.foldl (fun s t => s ++ sep ++ t) acc := by
  induction l with
  | nil => intro acc; rfl
  | cons a l ih =>
    intro acc
    simp only [List.foldl_cons]
    rw [← ih]
    simp only [String.append_assoc]

theorem reduceSummary_rest (rest : List String) (hr : ∀ t ∈ rest, t ≠ "oauthToken") :
    ∀ (n : Nat) (acc : String), reduceSummary rest (n + 1) acc =
      (rest.map (fun t => "HAWK-authenticated with " ++ uncamel t)).foldl
        (fun s t => s ++ ", or " ++ t) acc := by
  induction rest with
  | nil => intro n acc; rfl
  | cons t rest ih =>
    intro n acc
    have ht : t ≠ "oauthToken" := hr t (List.mem_cons_self _ _)
    simp only [reduceSummary, List.map_cons, List.foldl_cons]
    rw [ih (fun u hu => hr u (List.mem_cons_of_mem _ hu))]
    congr 1
    unfold summaryStep
    rw [if_neg ht, if_neg (Nat.succ_ne_zero n)]
    simp only [String.append_assoc]

theorem reduceSummary_sorted (l : List String) (hn : l.Nodup) (init : String) :
    reduceSummary (sortWith oauthFirst l) 0 init
      = init ++ ", or ".intercalate (summaryClauses l) := by
  rw [sortWith_oauthFirst l hn]
  unfold summaryClauses
  by_cases ho : "oauthToken" ∈ l
  · simp only [if_pos ho, List.singleton_append, reduceSummary, String.intercalate]
    rw [reduceSummary_rest _ (filter_ne_oauth l), intercalate_go_eq, ← foldl_sep_append]
    simp [summaryStep]
  · simp only [if_neg ho, List.nil_append]
    cases hf : l.filter (fun t => t != "oauthToken") with
    | nil => simp [reduceSummary, String.intercalate]
    | cons t rest =>
      have hall := filter_ne_oauth l
      rw [hf] at hall
      have ht : t ≠ "oauthToken" := hall t (List.mem_cons_self _ _)
      simp only [reduceSummary, List.map_cons, String.intercalate]
      rw [reduceSummary_rest _ (fun u hu => hall u (List.mem_cons_of_mem _ hu)),
        intercalate_go_eq, ← foldl_sep_append]
      simp [summaryStep, ht]

/-- C12, as stated, fails: for the tokens `sessionTokenWithDevice` and
`oauthToken` the summary ends in `session token`, with a lower-case `t`, not in
`session Token`. -/
theorem marshallAuthentication_example_counterexample :
    (marshallAuthentication (some ⟨false, ["sessionTokenWithDevice", "oauthToken"]⟩)).map
        (fun doc => doc.summary)
      ≠ some "authenticated with OAuth bearer token, or HAWK-authenticated with session Token" := by
  decide

/-- C12, amended: for the tokens `sessionTokenWithDevice` and `oauthToken` with
`optional` false, `marshallAuthentication` reports the tokens `sessionToken,
oauthToken` and the summary `authenticated with OAuth bearer token, or
HAWK-authenticated with session token`, the OAuth clause first. -/
theorem marshallAuthentication_example :
    dedupe (["sessionTokenWithDevice", "oauthToken"].map marshallToken)
      = ["sessionToken", "oauthToken"] ∧
    marshallAuthentication (some ⟨false, ["sessionTokenWithDevice", "oauthToken"]⟩)
      = some ⟨":lock:", "sessionToken, oauthToken",
        "authenticated with OAuth bearer token, or HAWK-authenticated with session token"⟩ := by
  decide

/-- C13: the `token` field that `marshallAuthentication` reports is the list of
canonical tokens joined by a comma and a space, where a name that starts with
`sessionToken` or with `keyFetchToken` is mapped to that text and any other name
to itself, and where each canonical token is kept at its first occurrence only:
the list has no duplicates and holds exactly the canonical tokens of the
input. -/
theorem marshallAuthentication_token (optional : Bool) (tokens : List String) :
    (marshallAuthentication (some ⟨optional, tokens⟩)).map (fun doc => doc.token)
      = some (", ".intercalate (dedupe (tokens.map marshallToken))) ∧
    dedupe (tokens.map marshallToken) = firstOccurrences (tokens.map marshallToken) ∧
    (dedupe (tokens.map marshallToken)).Nodup ∧
    (∀ t, t ∈ dedupe (tokens.map marshallToken) ↔ t ∈ tokens.map marshallToken) ∧
    (∀ t, startsWith t "sessionToken" = true → marshallToken t = "sessionToken") ∧
    (∀ t, startsWith t "keyFetchToken" = true → marshallToken t = "keyFetchToken") ∧
    (∀ t, startsWith t "sessionToken" = false → startsWith t "keyFetchToken" = false →
      marshallToken t = t) := by
  refine ⟨rfl, dedupe_eq_firstOccurrences _, ?_, ?_, marshallToken_session,
    marshallToken_keyFetch, marshallToken_other⟩
  · rw [dedupe_eq_firstOccurrences]
    exact firstOccurrences_nodup _
  · intro t
    rw [dedupe_eq_firstOccurrences]
    exact mem_firstOccurrences _ t

/-- C13 at a list of strategy names with a repetition. -/
theorem marshallAuthentication_token_witness :
    (marshallAuthentication
        (some ⟨true, ["sessionToken", "keyFetchTokenWithVerificationStatus",
          "sessionTokenWithDevice", "refreshToken"]⟩)).map (fun doc => doc.token)
      = some "sessionToken, keyFetchToken, refreshToken" :=
  (marshallAuthentication_token true ["sessionToken", "keyFetchTokenWithVerificationStatus",
    "sessionTokenWithDevice", "refreshToken"]).1.trans (by decide)

/-- C14: the summary that `marshallAuthentication` builds is `Optionally `,
exactly when `optional` is true, followed by the clauses joined by `, or `: the
clause `authenticated with OAuth bearer token` first when `oauthToken` is among
the canonical tokens, then one clause `HAWK-authenticated with` and the
uncamelled token for each other canonical token, in first-seen order. -/
theorem marshallAuthentication_summary (optional : Bool) (tokens : List String) :
    (marshallAuthentication (some ⟨optional, tokens⟩)).map (fun doc => doc.summary)
      = some ((if optional then "Optionally " else "") ++
          ", or ".intercalate (summaryClauses (firstOccurrences (tokens.map marshallToken)))) := by
  simp only [marshallAuthentication, Option.map_some']
  rw [dedupe_eq_firstOccurrences,
    reduceSummary_sorted _ (firstOccurrences_nodup _)]

/-- C14 at a list of strategy names that holds `oauthToken` in the middle. -/
theorem marshallAuthentication_summary_witness :
    (marshallAuthentication
        (some ⟨true, ["sessionTokenWithDevice", "oauthToken", "keyFetchToken"]⟩)).map
        (fun doc => doc.summary)
      = some ("Optionally authenticated with OAuth bearer token, or HAWK-authenticated with "
          ++ "session token, or HAWK-authenticated with key fetch token") :=
  (marshallAuthentication_summary true
    ["sessionTokenWithDevice", "oauthToken", "keyFetchToken"]).trans (by decide)

/-! ## `getSlug` -/

theorem not_space_of_slugChar (c : Char) (h : isSlugChar c = true) : isJsSpace c = false := by
  simp only [isSlugChar, Bool.or_eq_true, Bool.and_eq_true, decide_eq_true_eq, beq_iff_eq] at h
  simp only [isJsSpace, Bool.or_eq_false_iff, Bool.and_eq_false_iff, decide_eq_false_iff_not,
    beq_eq_false_iff_ne, ne_eq]
  omega

theorem toLower_of_slugChar (c : Char) (h : isSlugChar c = true) : c.toLower = c := by
  simp only [isSlugChar, Bool.or_eq_true, Bool.and_eq_true, decide_eq_true_eq, beq_iff_eq] at h
  unfold Char.toLower
  simp only
  rw [if_neg]
  omega

theorem asciiLower_of_slug (t : String) (h : ∀ c ∈ t.data, isSlugChar c = true) :
    asciiLower t = t := by
  unfold asciiLower
  have : t.data.map Char.toLower = t.data := by
    conv_rhs => rw [← List.map_id t.data]
    apply List.map_congr_left
    intro c hc
    exact toLower_of_slugChar c (h c hc)
  rw [this]

/-- C18: every character of `getSlug (string)` is one of `a` to `z`, `0` to `9`,
the underscore and the hyphen, whatever `toLowerCase` does; and since
`toLowerCase` leaves a string of such characters as it is, `getSlug` applied
to its own result returns that result. -/
theorem getSlug_safe (toLowerCase : String → String) (string : String) :
    (∀ c ∈ (getSlug toLowerCase string).data, isSlugChar c = true) ∧
    ((∀ t : String, (∀ c ∈ t.data, isSlugChar c = true) → toLowerCase t = t) →
      getSlug toLowerCase (getSlug toLowerCase string) = getSlug toLowerCase string) := by
  have hsafe : ∀ c ∈ (getSlug toLowerCase string).data, isSlugChar c = true := by
    intro c hc
    exact (List.mem_filter.1 hc).2
  refine ⟨hsafe, fun hlower => ?_⟩
  generalize getSlug toLowerCase string = t at hsafe
  unfold getSlug
  rw [hlower t hsafe]
  have hmap : t.data.map (fun c => if isJsSpace c then '-' else c) = t.data := by
    conv_rhs => rw [← List.map_id t.data]
    apply List.map_congr_left
    intro c hc
    simp [not_space_of_slugChar c (hsafe c hc)]
  rw [hmap, List.filter_eq_self.2 hsafe]

/-- C18 at the text `GET /account/create`, with the lower-case mapping of the
letters `A` to `Z`. -/
theorem getSlug_safe_witness :
    getSlug asciiLower "GET /account/create" = "get-accountcreate" ∧
    getSlug asciiLower (getSlug asciiLower "GET /account/create")
      = getSlug asciiLower "GET /account/create" :=
  ⟨by decide, (getSlug_safe asciiLower "GET /account/create").2 asciiLower_of_slug⟩

/-! ## Sorting by `errno` -/

theorem insertSorted_perm {α : Type} (compare : α → α → Int) (x : α) (l : List α) :
    (insertSorted compare x l).Perm (x :: l) := by
  induction l with
  | nil => exact List.Perm.refl _
  | cons y ys ih =>
    simp only [insertSorted]
    split
    · exact List.Perm.refl _
    · exact (List.Perm.cons y ih).trans (List.Perm.swap x y ys)

theorem sortWith_perm {α : Type} (compare : α → α → Int) (l : List α) :
    (sortWith compare l).Perm l := by
  induction l with
  | nil => exact List.Perm.refl _
  | cons x xs ih =>
    simp only [sortWith]
    exact (insertSorted_perm compare x _).trans (List.Perm.cons x ih)

theorem insertSorted_sorted {α : Type} (compare : α → α → Int) (key : α → Int) (x : α)
    (l : List α) (hc : ∀ y ∈ l, compare x y = key x - key y)
    (hl : l.Pairwise (fun a b => key a ≤ key b)) :
    (insertSorted compare x l).Pairwise (fun a b => key a ≤ key b) := by
  induction l with
  | nil => simp [insertSorted]
  | cons y ys ih =>
    rw [List.pairwise_cons] at hl
    simp only [insertSorted]
    have hxy := hc y (List.mem_cons_self _ _)
    split
    · rename_i hle
      rw [hxy] at hle
      refine List.Pairwise.cons ?_ (List.Pairwise.cons hl.1 hl.2)
      intro b hb
      rcases List.mem_cons.1 hb with rfl | hb
      · omega
      · have := hl.1 b hb; omega
    · rename_i hnle
      rw [hxy] at hnle
      refine List.Pairwise.cons ?_
        (ih (fun z hz => hc z (List.mem_cons_of_mem _ hz)) hl.2)
      intro b hb
      rcases List.mem_cons.1 ((insertSorted_perm compare x ys).subset hb) with rfl | hb
      · omega
      · exact hl.1 b hb

theorem sortWith_sorted {α : Type} (compare : α → α → Int) (key : α → Int) (l : List α)
    (hc : ∀ x ∈ l, ∀ y ∈ l, compare x y = key x - key y) :
    (sortWith compare l).Pairwise (fun a b => key a ≤ key b) := by
  induction l with
  | nil => simp [sortWith]
  | cons x xs ih =>
    simp only [sortWith]
    apply insertSorted_sorted
    · intro y hy
      exact hc x (List.mem_cons_self _ _) y
        (List.mem_cons_of_mem _ ((sortWith_perm compare xs).subset hy))
    · exact ih (fun a ha b hb =>
        hc a (List.mem_cons_of_mem _ ha) b (List.mem_cons_of_mem _ hb))

theorem errnoDifference_numeric (a b : Val) (ha : NumericErrno a) (hb : NumericErrno b) :
    errnoDifference a b = errnoOf a - errnoOf b := by
  obtain ⟨m, hm⟩ := ha
  obtain ⟨n, hn⟩ := hb
  simp [errnoDifference, errnoOf, hm, hn]

theorem collectErrors_errorModule : collectErrors errorModule = .ok errorModuleCollected :=
  rfl

/-- C17: when the `reduce` of `parseErrors` collects the records `collected` from
the module, each with a number as `errno`, `parseErrors` returns, and the list
`errors` and the list `additionalErrorParams` that it returns are each a
permutation of the collected records in which the `errno` never decreases. -/
theorem parseErrors_sorted (node : Val) (collected : ErrorsResult)
    (hc : collectErrors node = .ok collected)
    (he : ∀ r ∈ collected.errors, NumericErrno r)
    (hp : ∀ r ∈ collected.additionalErrorParams, NumericErrno r) :
    ∃ returned, parseErrors node = .ok returned ∧
      returned.errors.Perm collected.errors ∧
      returned.errors.Pairwise (fun a b => errnoOf a ≤ errnoOf b) ∧
      returned.additionalErrorParams.Perm collected.additionalErrorParams ∧
      returned.additionalErrorParams.Pairwise (fun a b => errnoOf a ≤ errnoOf b) := by
  refine ⟨_, by unfold parseErrors; rw [hc]; rfl, ?_, ?_, ?_, ?_⟩
  · exact sortWith_perm _ _
  · exact sortWith_sorted _ errnoOf _
      (fun a ha b hb => errnoDifference_numeric a b (he a ha) (he b hb))
  · exact sortWith_perm _ _
  · exact sortWith_sorted _ errnoOf _
      (fun a ha b hb => errnoDifference_numeric a b (hp a ha) (hp b hb))

/-- C17 at the module `errorModule`, which declares the errors 102, 999 and 101
in this order, the first and the last with additional parameters: `parseErrors`
returns the records of the errors 101, 102 and 999 and the records of the
additional parameters of 101 and 102. -/
theorem parseErrors_sorted_witness :
    parseErrors errorModule = .ok
      { errors := [errorRecord (num 400) (num 101) (str "Account exists"),
          errorRecord (num 400) (num 102) (str "Unknown account"),
          errorRecord (num 500) (num 999) (str "Unspecified error")]
        additionalErrorParams :=
          [obj [("errno", num 101), ("hasParams", .bool true), ("params", str "email")],
            obj [("errno", num 102), ("hasParams", .bool true), ("params", str "email")]] } ∧
    ∃ returned, parseErrors errorModule = .ok returned ∧
      returned.errors.Perm errorModuleCollected.errors ∧
      returned.errors.Pairwise (fun a b => errnoOf a ≤ errnoOf b) ∧
      returned.additionalErrorParams.Perm errorModuleCollected.additionalErrorParams ∧
      returned.additionalErrorParams.Pairwise (fun a b => errnoOf a ≤ errnoOf b) :=
  ⟨rfl, parseErrors_sorted errorModule errorModuleCollected collectErrors_errorModule
    (by
      intro r hr
      simp only [errorModuleCollected, List.mem_cons, List.mem_singleton, List.not_mem_nil,
        or_false] at hr
      rcases hr with rfl | rfl | rfl <;> exact ⟨_, rfl⟩)
    (by
      intro r hr
      simp only [errorModuleCollected, List.mem_cons, List.mem_singleton, List.not_mem_nil,
        or_false] at hr
      rcases hr with rfl | rfl <;> exact ⟨_, rfl⟩)⟩

/-! ## `marshallErrors` -/

theorem find_returnAppError (K m : String) :
    find (returnAppError K m) returnNewAppError { recursive := true } = [returnAppError K m] :=
  rfl

theorem find_appErrorFunction (K m : String) :
    find (appErrorFunction K m) returnNewAppError { recursive := true }
      = [returnAppError K m] :=
  rfl

theorem match_str_iff (n : Val) (t : String) : match_ n (str t) = true ↔ n = str t := by
  cases hn : isObject n
  · rw [match_scalar n _ hn]
    exact strictEq_iff n (str t)
  · rw [match_object_scalar n (str t) hn rfl]
    constructor
    · intro h; cases h
    · intro h; rw [h] at hn; cases hn

theorem match_literal_identifier (m k : String) (hk : k ≠ "Identifier")
    (hk' : k ≠ "Literal") :
    match_ (literal (str m)) (obj [("type", str "Identifier"), ("name", str k)]) = false := by
  cases h : match_ (literal (str m)) (obj [("type", str "Identifier"), ("name", str k)])
  · rfl
  · exfalso
    obtain ⟨_, hall⟩ := (match_fields (literal (str m)) _ rfl).1 h
    obtain ⟨n₁, hn₁, hm₁⟩ := hall (str "Identifier") (by simp [fieldValues])
    obtain ⟨n₂, hn₂, hm₂⟩ := hall (str k) (by simp [fieldValues])
    rw [match_str_iff] at hm₁ hm₂
    rw [hm₁] at hn₁
    rw [hm₂] at hn₂
    simp only [literal, fieldValues, List.map, List.mem_cons, List.mem_singleton,
      List.not_mem_nil, or_false, Val.str.injEq] at hn₁ hn₂
    rcases hn₁ with h₁ | h₁
    · exact absurd h₁ (by decide)
    · rcases hn₂ with h₂ | h₂
      · exact hk' h₂
      · exact hk (h₂.trans h₁.symm)

theorem findProperty_errno (K m : String) :
    findProperty (appErrorObject K m) "errno" ERROR_PROPERTY_TYPES "lib/error.js"
      = .ok (memberExpression (identifier "ERRNO") (identifier K)) :=
  rfl

theorem findProperty_message (K m : String) :
    findProperty (appErrorObject K m) "message" ERROR_PROPERTY_TYPES "lib/error.js"
      = .ok (literal (str m)) :=
  rfl

theorem match_message_property (m k : String) (hk : k ≠ "Identifier") (hk' : k ≠ "Literal")
    (hm : k ≠ "message") :
    match_ (property (identifier "message") (literal (str m)))
      (obj [("type", str "Property"), ("kind", str "init"),
        ("key", obj [("type", str "Identifier"), ("name", str k)])]) = false := by
  cases h : match_ (property (identifier "message") (literal (str m)))
      (obj [("type", str "Property"), ("kind", str "init"),
        ("key", obj [("type", str "Identifier"), ("name", str k)])])
  · rfl
  · exfalso
    obtain ⟨_, hall⟩ := (match_fields (property (identifier "message") (literal (str m))) _ rfl).1 h
    obtain ⟨n, hn, hmn⟩ := hall (obj [("type", str "Identifier"), ("name", str k)])
      (by simp [fieldValues])
    simp only [property, fieldValues, List.map, List.mem_cons, List.mem_singleton,
      List.not_mem_nil, or_false] at hn
    rcases hn with rfl | rfl | rfl | rfl
    · cases hmn
    · obtain ⟨_, hall'⟩ := (match_fields (identifier "message") _ rfl).1 hmn
      obtain ⟨n', hn', hmn'⟩ := hall' (str k) (by simp [fieldValues])
      rw [match_str_iff] at hmn'
      rw [hmn'] at hn'
      simp only [identifier, fieldValues, List.map, List.mem_cons, List.mem_singleton,
        List.not_mem_nil, or_false, Val.str.injEq] at hn'
      rcases hn' with h₁ | h₁
      · exact hk h₁
      · exact hm h₁
    · rw [match_literal_identifier m k hk hk'] at hmn
      cases hmn
    · cases hmn

theorem findProperty_code (K m : String) :
    findProperty (appErrorObject K m) "code" ERROR_PROPERTY_TYPES "lib/error.js"
      = .ok undef := by
  have h₂ := match_message_property m "code" (by decide) (by decide) (by decide)
  have hfind : find (arr [property (identifier "errno")
        (memberExpression (identifier "ERRNO") (identifier K)),
      property (identifier "message") (literal (str m))])
      (obj [("type", str "Property"), ("kind", str "init"),
        ("key", obj [("type", str "Identifier"), ("name", str "code")])])
      { array := true } = [] := by
    have h₁ : find (arr [property (identifier "errno")
          (memberExpression (identifier "ERRNO") (identifier K)),
        property (identifier "message") (literal (str m))])
        (obj [("type", str "Property"), ("kind", str "init"),
          ("key", obj [("type", str "Identifier"), ("name", str "code")])])
        { array := true }
        = find (property (identifier "message") (literal (str m)))
            (obj [("type", str "Property"), ("kind", str "init"),
              ("key", obj [("type", str "Identifier"), ("name", str "code")])])
            { array := true } ++ [] := rfl
    rw [h₁, find_array_mode_not_array _ _ h₂ rfl]
    rfl
  have h : findProperty (appErrorObject K m) "code" ERROR_PROPERTY_TYPES "lib/error.js"
      = (if truthy ((find (arr [property (identifier "errno")
              (memberExpression (identifier "ERRNO") (identifier K)),
            property (identifier "message") (literal (str m))])
            (obj [("type", str "Property"), ("kind", str "init"),
              ("key", obj [("type", str "Identifier"), ("name", str "code")])])
            { array := true }).head?.getD undef) then
          (do
            let value ← liftThrow (getProp ((find (arr [property (identifier "errno")
                (memberExpression (identifier "ERRNO") (identifier K)),
              property (identifier "message") (literal (str m))])
              (obj [("type", str "Property"), ("kind", str "init"),
                ("key", obj [("type", str "Identifier"), ("name", str "code")])])
              { array := true }).head?.getD undef) "value")
            assertType value ERROR_PROPERTY_TYPES "lib/error.js"
            pure value)
        else pure undef) := rfl
  rw [h, hfind]
  rfl

theorem marshallErrorProperty_code (K m : String) :
    marshallErrorProperty (appErrorObject K m) "code" none = .ok undef := by
  unfold marshallErrorProperty
  rw [findProperty_code]
  rfl

theorem marshallErrorProperty_errno (K m : String) (errnoMap : Env) :
    marshallErrorProperty (appErrorObject K m) "errno" (some errnoMap)
      = .ok (mapGet errnoMap (str K)) :=
  rfl

theorem marshallErrorProperty_message (K m : String) :
    marshallErrorProperty (appErrorObject K m) "message" none = .ok (str m) :=
  rfl

theorem marshallError_returnAppError (errnoMap defaultsMap : Env) (result : ErrorsResult)
    (K m : String) :
    marshallError errnoMap defaultsMap result (returnAppError K m)
      = .ok { result with errors := result.errors ++
          [errorRecord (mapGet defaultsMap (str "code"))
            (orElse (mapGet errnoMap (str K)) (mapGet defaultsMap (str "errno")))
            (orElse (str m) (mapGet defaultsMap (str "message")))] } := by
  have h : marshallError errnoMap defaultsMap result (returnAppError K m)
      = (marshallErrorProperty (appErrorObject K m) "code" none).bind (fun code =>
          .ok { result with errors := result.errors ++
            [errorRecord (orElse code (mapGet defaultsMap (str "code")))
              (orElse (mapGet errnoMap (str K)) (mapGet defaultsMap (str "errno")))
              (orElse (str m) (mapGet defaultsMap (str "message")))] }) := rfl
  rw [h, marshallErrorProperty_code]
  rfl

theorem marshallErrors_appErrorFunction (errnoMap defaultsMap : Env) (result : ErrorsResult)
    (K m : String) :
    marshallErrors errnoMap defaultsMap result (appErrorFunction K m)
      = .ok { result with errors := result.errors ++
          [errorRecord (mapGet defaultsMap (str "code"))
            (orElse (mapGet errnoMap (str K)) (mapGet defaultsMap (str "errno")))
            (orElse (str m) (mapGet defaultsMap (str "message")))] } := by
  unfold marshallErrors
  rw [find_appErrorFunction]
  simp only [List.foldlM, marshallError_returnAppError]
  rfl

/-- C15, as stated, fails: when the errno table binds the key to `0`, the record
takes its `errno` from the defaults. -/
theorem marshallErrors_counterexample :
    mapGet [(str "ACCOUNT_EXISTS", num 0)] (str "ACCOUNT_EXISTS") = num 0 ∧
    marshallErrors [(str "ACCOUNT_EXISTS", num 0)]
        [(str "code", num 500), (str "errno", num 999), (str "message", str "Unspecified error")]
        ⟨[], []⟩ (appErrorFunction "ACCOUNT_EXISTS" "Account exists")
      = .ok ⟨[errorRecord (num 500) (num 999) (str "Account exists")], []⟩ :=
  ⟨rfl, (marshallErrors_appErrorFunction _ _ _ _ _).trans rfl⟩

/-- C15, amended: for an errno table that binds the key `K` to a truthy value
`v` and a literal message `m` that is not empty, the construct `return new
AppError({ errno: ERRNO.K, message: m })` yields one error record, whose `errno`
is `v`, whose `definition` is `m` and whose `code` is the one of the defaults
map, and no record of additional parameters. -/
theorem marshallErrors_record (errnoMap defaultsMap : Env) (K m : String) (v : Val)
    (hK : mapGet errnoMap (str K) = v) (hv : truthy v = true) (hm : m ≠ "") :
    marshallErrors errnoMap defaultsMap ⟨[], []⟩ (appErrorFunction K m)
      = .ok ⟨[errorRecord (mapGet defaultsMap (str "code")) v (str m)], []⟩ := by
  rw [marshallErrors_appErrorFunction, hK]
  have h₁ : orElse v (mapGet defaultsMap (str "errno")) = v := by simp [orElse, hv]
  have h₂ : orElse (str m) (mapGet defaultsMap (str "message")) = str m := by
    simp [orElse, truthy, hm]
  rw [h₁, h₂]
  rfl

/-- C15, amended, at the errno table `{ ACCOUNT_EXISTS: 101 }` and the message
`Account exists`. -/
theorem marshallErrors_record_witness :
    marshallErrors [(str "ACCOUNT_EXISTS", num 101)]
        [(str "code", num 500), (str "errno", num 999), (str "message", str "Unspecified error")]
        ⟨[], []⟩ (appErrorFunction "ACCOUNT_EXISTS" "Account exists")
      = .ok ⟨[errorRecord (num 500) (num 101) (str "Account exists")], []⟩ :=
  marshallErrors_record [(str "ACCOUNT_EXISTS", num 101)]
    [(str "code", num 500), (str "errno", num 999), (str "message", str "Unspecified error")]
    "ACCOUNT_EXISTS" "Account exists" (num 101) rfl rfl (by decide)

/-! ## `findExportedFunction` -/

theorem assertType_ok (node : Val) (types : List String) (filePath : String)
    (h : ∃ t ∈ types, getProp node "type" = some (str t)) :
    assertType node types filePath = .ok () := by
  obtain ⟨t, ht, hn⟩ := h
  obtain ⟨ps, rfl, _⟩ := isObject_of_type (by intro h; cases h) hn
  simp only [assertType, truthy, Bool.not_true, Bool.false_eq_true, if_false, hn, liftThrow]
  simp [setHas, ht, bind, Except.bind, pure, Except.pure]

theorem assertType_error (node : Val) (types : List String) (filePath : String)
    (h : ¬ ∃ t ∈ types, getProp node "type" = some (str t)) :
    ∃ e, assertType node types filePath = .error e := by
  unfold assertType
  cases ht : truthy node
  · exact ⟨_, rfl⟩
  · simp only [Bool.not_true, Bool.false_eq_true, if_false]
    cases hn : getProp node "type" with
    | none => exact ⟨_, rfl⟩
    | some nodeType =>
      have hs : setHas types nodeType = false := by
        cases hh : setHas types nodeType
        · rfl
        · exfalso
          cases nodeType <;> simp [setHas] at hh
          rename_i t
          exact h ⟨t, hh, hn⟩
      simp only [liftThrow, bind, Except.bind, hs, Bool.not_false, if_true]
      cases getProp node "loc" with
      | none => exact ⟨_, rfl⟩
      | some loc =>
        simp only
        cases getProp loc "start" with
        | none => exact ⟨_, rfl⟩
        | some start =>
          simp only
          cases getProp start "line" with
          | none => exact ⟨_, rfl⟩
          | some line =>
            simp only
            cases getProp start "column" with
            | none => exact ⟨_, rfl⟩
            | some column => exact ⟨_, rfl⟩

theorem find_in_fields (node criteria : Val) :
    find node criteria { recursive := true } =
      if match_ node criteria then [node]
      else (fieldValues node).flatMap (fun c => find c criteria { recursive := true }) := by
  cases hm : match_ node criteria
  · cases node <;> simp [find, hm, fieldValues, findElems_eq, findProps_eq]
  · simp [find_of_match node criteria _ hm]

theorem findAssignmentsTo_eq (node lhs : Val) :
    findAssignmentsTo node lhs =
      if match_ node (assignmentTo lhs) then [node]
      else (fieldValues node).flatMap (fun c => findAssignmentsTo c lhs) :=
  find_in_fields node (assignmentTo lhs)

theorem match_assignmentTo_false (node lhs : Val)
    (h : str "AssignmentExpression" ∉ fieldValues node ∨ str "=" ∉ fieldValues node) :
    match_ node (assignmentTo lhs) = false := by
  cases hm : match_ node (assignmentTo lhs)
  · rfl
  · exfalso
    cases hn : isObject node
    · rw [match_scalar node _ hn, strictEq_iff] at hm
      rw [hm] at hn
      cases hn
    · obtain ⟨_, hall⟩ := (match_fields node _ hn).1 hm
      rcases h with h | h
      · obtain ⟨n, hn', hmn⟩ := hall (str "AssignmentExpression") (by simp [assignmentTo, fieldValues])
        rw [match_str_iff] at hmn
        exact h (hmn ▸ hn')
      · obtain ⟨n, hn', hmn⟩ := hall (str "=") (by simp [assignmentTo, fieldValues])
        rw [match_str_iff] at hmn
        exact h (hmn ▸ hn')

theorem findAssignmentsTo_scalar (node lhs : Val) (h : isObject node = false) :
    findAssignmentsTo node lhs = [] := by
  have hf : fieldValues node = [] := by cases node <;> simp [isObject] at h <;> rfl
  rw [findAssignmentsTo_eq, match_assignmentTo_false node lhs (by rw [hf]; simp), hf]
  rfl

theorem findAssignmentsTo_identifier (X : String) (lhs : Val) :
    findAssignmentsTo (identifier X) lhs = [] := by
  have hm : match_ (identifier X) (assignmentTo lhs) = false := by
    apply match_assignmentTo_false
    by_cases hX : X = "="
    · left; subst hX; simp [identifier, fieldValues]
    · right; simp [identifier, fieldValues]; exact fun h => hX h.symm
  rw [findAssignmentsTo_eq, hm]
  simp [identifier, fieldValues, findAssignmentsTo_scalar, isObject]

theorem findAssignmentsTo_memberExpression (object property lhs : Val)
    (ho : isObject object = true) (hp : isObject property = true) :
    findAssignmentsTo (memberExpression object property) lhs
      = findAssignmentsTo object lhs ++ findAssignmentsTo property lhs := by
  have hm : match_ (memberExpression object property) (assignmentTo lhs) = false := by
    apply match_assignmentTo_false
    left
    simp only [memberExpression, fieldValues, List.map, List.mem_cons, List.mem_singleton,
      List.not_mem_nil, or_false, not_or]
    refine ⟨by simp, ?_, ?_, by simp⟩
    · intro h; rw [← h] at ho; cases ho
    · intro h; rw [← h] at hp; cases hp
  rw [findAssignmentsTo_eq, hm]
  simp [memberExpression, fieldValues, findAssignmentsTo_scalar, isObject]

theorem match_assignmentExpression (left right lhs : Val) (hl : isObject lhs = true) :
    match_ (assignmentExpression left right) (assignmentTo lhs)
      = (match_ left lhs || match_ right lhs) := by
  have hs : ∀ t : String, match_ (str t) lhs = false := by
    intro t
    cases h : match_ (str t) lhs
    · rfl
    · rw [match_scalar (str t) lhs rfl, strictEq_iff] at h
      rw [← h] at hl
      cases hl
  rw [Bool.eq_iff_iff, match_fields (assignmentExpression left right) (assignmentTo lhs) rfl]
  simp only [assignmentExpression, assignmentTo, fieldValues, List.map, List.mem_cons,
    List.mem_singleton, List.not_mem_nil, or_false, Bool.or_eq_true]
  constructor
  · rintro ⟨_, hall⟩
    obtain ⟨n, hn, hmn⟩ := hall lhs (Or.inr (Or.inr rfl))
    rcases hn with rfl | rfl | rfl | rfl
    · rw [hs] at hmn; cases hmn
    · rw [hs] at hmn; cases hmn
    · exact Or.inl hmn
    · exact Or.inr hmn
  · intro h
    refine ⟨rfl, ?_⟩
    rintro p (rfl | rfl | rfl)
    · exact ⟨_, Or.inl rfl, rfl⟩
    · exact ⟨_, Or.inr (Or.inl rfl), rfl⟩
    · rcases h with h | h
      · exact ⟨_, Or.inr (Or.inr (Or.inl rfl)), h⟩
      · exact ⟨_, Or.inr (Or.inr (Or.inr rfl)), h⟩

theorem findAssignmentsTo_assignmentExpression (left right lhs : Val)
    (hl : isObject lhs = true) :
    findAssignmentsTo (assignmentExpression left right) lhs
      = if match_ left lhs || match_ right lhs then [assignmentExpression left right]
        else findAssignmentsTo left lhs ++ findAssignmentsTo right lhs := by
  rw [findAssignmentsTo_eq, match_assignmentExpression left right lhs hl]
  cases match_ left lhs || match_ right lhs
  · simp [assignmentExpression, fieldValues, findAssignmentsTo_scalar, isObject]
  · rfl

theorem findAssignmentsTo_expressionStatement (expression lhs : Val)
    (he : isObject expression = true) :
    findAssignmentsTo (expressionStatement expression) lhs = findAssignmentsTo expression lhs := by
  have hm : match_ (expressionStatement expression) (assignmentTo lhs) = false := by
    apply match_assignmentTo_false
    left
    simp only [expressionStatement, fieldValues, List.map, List.mem_cons, List.mem_singleton,
      List.not_mem_nil, or_false, not_or]
    refine ⟨by simp, ?_⟩
    intro h; rw [← h] at he; cases he
  rw [findAssignmentsTo_eq, hm]
  simp [expressionStatement, fieldValues, findAssignmentsTo_scalar, isObject]

theorem findAssignmentsTo_statements (statements : List Val) (lhs : Val)
    (h : ∀ s ∈ statements, isObject s = true) :
    findAssignmentsTo (arr statements) lhs
      = statements.flatMap (fun s => findAssignmentsTo s lhs) := by
  have hm : match_ (arr statements) (assignmentTo lhs) = false := by
    apply match_assignmentTo_false
    left
    intro hmem
    have := h _ hmem
    cases this
  rw [findAssignmentsTo_eq, hm]
  rfl

theorem match_exportsDot_moduleExportsMember (X : String) :
    match_ (exportsDot X) moduleExportsMember = false := by
  cases h : match_ (exportsDot X) moduleExportsMember
  · rfl
  · exfalso
    obtain ⟨_, hall⟩ := (match_fields (exportsDot X) moduleExportsMember rfl).1 h
    obtain ⟨n, hn, hmn⟩ := hall (obj [("type", str "MemberExpression"),
      ("object", obj [("type", str "Identifier"), ("name", str "module")]),
      ("property", obj [("type", str "Identifier"), ("name", str "exports")])])
      (by simp [moduleExportsMember, fieldValues])
    simp only [exportsDot, memberExpression, fieldValues, List.map, List.mem_cons,
      List.mem_singleton, List.not_mem_nil, or_false] at hn
    rcases hn with rfl | rfl | rfl | rfl
    · cases hmn
    · cases hmn
    · obtain ⟨_, hall'⟩ := (match_fields (identifier X) _ rfl).1 hmn
      obtain ⟨n', hn', hmn'⟩ := hall' (obj [("type", str "Identifier"), ("name", str "module")])
        (by simp [fieldValues])
      simp only [identifier, fieldValues, List.map, List.mem_cons, List.mem_singleton,
        List.not_mem_nil, or_false] at hn'
      rcases hn' with rfl | rfl
      · cases hmn'
      · cases hmn'
    · cases hmn

theorem match_moduleExportsDot_exportsMember (X : String) (hX : X ≠ "exports") :
    match_ (moduleExportsDot X) exportsMember = false := by
  cases h : match_ (moduleExportsDot X) exportsMember
  · rfl
  · exfalso
    obtain ⟨_, hall⟩ := (match_fields (moduleExportsDot X) exportsMember rfl).1 h
    obtain ⟨n, hn, hmn⟩ := hall (obj [("type", str "Identifier"), ("name", str "exports")])
      (by simp [exportsMember, fieldValues])
    simp only [moduleExportsDot, memberExpression, fieldValues, List.map, List.mem_cons,
      List.mem_singleton, List.not_mem_nil, or_false] at hn
    rcases hn with rfl | rfl | rfl | rfl
    · cases hmn
    · cases hmn
    · obtain ⟨_, hall'⟩ := (match_fields (identifier X) _ rfl).1 hmn
      obtain ⟨n', hn', hmn'⟩ := hall' (str "exports") (by simp [fieldValues])
      rw [match_str_iff] at hmn'
      rw [hmn'] at hn'
      simp only [identifier, fieldValues, List.map, List.mem_cons, List.mem_singleton,
        List.not_mem_nil, or_false, Val.str.injEq] at hn'
      rcases hn' with h₁ | h₁
      · exact absurd h₁ (by decide)
      · exact hX h₁.symm
    · cases hmn

theorem findAssignmentsTo_moduleDotExports (lhs : Val) :
    findAssignmentsTo moduleDotExports lhs = [] := by
  unfold moduleDotExports
  rw [findAssignmentsTo_memberExpression (identifier "module") (identifier "exports") lhs rfl rfl,
    findAssignmentsTo_identifier, findAssignmentsTo_identifier]
  rfl

theorem findAssignmentsTo_exportsDot (X : String) (lhs : Val) :
    findAssignmentsTo (exportsDot X) lhs = [] := by
  unfold exportsDot
  rw [findAssignmentsTo_memberExpression (identifier "exports") (identifier X) lhs rfl rfl,
    findAssignmentsTo_identifier, findAssignmentsTo_identifier]
  rfl

theorem findAssignmentsTo_moduleExportsDot (X : String) (lhs : Val) :
    findAssignmentsTo (moduleExportsDot X) lhs = [] := by
  unfold moduleExportsDot
  rw [findAssignmentsTo_memberExpression moduleDotExports (identifier X) lhs rfl rfl,
    findAssignmentsTo_moduleDotExports, findAssignmentsTo_identifier]
  rfl

theorem flatMap_eq_nil {f : Val → List Val} {l : List Val} (h : ∀ s ∈ l, f s = []) :
    l.flatMap f = [] := by
  induction l with
  | nil => rfl
  | cons a l ih =>
    rw [List.flatMap_cons, h a (List.mem_cons_self _ _),
      ih (fun s hs => h s (List.mem_cons_of_mem _ hs))]
    rfl

theorem findAssignmentsTo_assignmentStatement (left right lhs : Val)
    (hl : isObject lhs = true) :
    findAssignmentsTo (assignmentStatement left right) lhs
      = if match_ left lhs || match_ right lhs then [assignmentExpression left right]
        else findAssignmentsTo left lhs ++ findAssignmentsTo right lhs := by
  unfold assignmentStatement
  rw [findAssignmentsTo_expressionStatement (assignmentExpression left right) lhs rfl,
    findAssignmentsTo_assignmentExpression left right lhs hl]

/-- The searches of `findModuleExports` in a statement list that holds one
assignment statement among statements without exports. -/
theorem findAssignmentsTo_among (before after : List Val) (left right lhs : Val)
    (hl : isObject lhs = true)
    (hb : ∀ s ∈ before ++ after, isObject s = true ∧ findAssignmentsTo s lhs = []) :
    findAssignmentsTo (arr (before ++ assignmentStatement left right :: after)) lhs
      = if match_ left lhs || match_ right lhs then [assignmentExpression left right]
        else findAssignmentsTo left lhs ++ findAssignmentsTo right lhs := by
  rw [findAssignmentsTo_statements, List.flatMap_append, List.flatMap_cons,
    flatMap_eq_nil (fun s hs => (hb s (List.mem_append_left _ hs)).2),
    flatMap_eq_nil (fun s hs => (hb s (List.mem_append_right _ hs)).2),
    findAssignmentsTo_assignmentStatement left right lhs hl]
  · simp
  · intro s hs
    rcases List.mem_append.1 hs with h | h
    · exact (hb s (List.mem_append_left _ h)).1
    · rcases List.mem_cons.1 h with rfl | h
      · rfl
      · exact (hb s (List.mem_append_right _ h)).1

theorem findExportedFunction_of_length (node : Val) (filePath : String)
    (h : (findModuleExports node).length ≠ 1) :
    findExportedFunction node filePath
      = fail ("Expected 1 export, found " ++ toString (findModuleExports node).length)
          filePath undef := by
  unfold findExportedFunction
  cases hl : findModuleExports node with
  | nil => rfl
  | cons e l =>
    cases l with
    | nil => rw [hl] at h; exact absurd rfl h
    | cons e' l' => rfl

theorem findExportedFunction_of_sole (node : Val) (filePath : String) (exported fn body : Val)
    (hl : findModuleExports node = [exported]) (hr : getProp exported "right" = some fn)
    (hf : IsFunctionValued fn) (hb : getProp fn "body" = some body) :
    findExportedFunction node filePath = .ok body := by
  unfold findExportedFunction
  rw [hl]
  simp only [hr, hb, liftThrow, bind, Except.bind,
    assertType_ok fn FUNCTION_EXPRESSION_TYPES filePath hf]

theorem findExportedFunction_of_not_function (node : Val) (filePath : String)
    (exported fn : Val) (hl : findModuleExports node = [exported])
    (hr : getProp exported "right" = some fn) (hf : ¬ IsFunctionValued fn) :
    ∃ e, findExportedFunction node filePath = .error e := by
  obtain ⟨e, he⟩ := assertType_error fn FUNCTION_EXPRESSION_TYPES filePath hf
  refine ⟨e, ?_⟩
  unfold findExportedFunction
  rw [hl]
  simp only [hr, liftThrow, bind, Except.bind, he]

theorem findAssignmentsTo_exportTarget (left right : Val) (h : ExportTarget left) :
    1 ≤ (findAssignmentsTo (assignmentStatement left right) moduleExportsMember).length +
      (findAssignmentsTo (assignmentStatement left right) exportsMember).length := by
  rw [findAssignmentsTo_assignmentStatement left right moduleExportsMember rfl,
    findAssignmentsTo_assignmentStatement left right exportsMember rfl]
  rcases h with rfl | ⟨X, rfl | rfl⟩
  · have h₂ : match_ moduleDotExports exportsMember = true := rfl
    simp [h₂]
  · have h₁ : match_ (moduleExportsDot X) moduleExportsMember = true := rfl
    simp [h₁]
  · have h₂ : match_ (exportsDot X) exportsMember = true := rfl
    simp [h₂]

theorem findModuleExports_statements (statements : List Val)
    (hs : ∀ s ∈ statements, isObject s = true) :
    findModuleExports (arr statements)
      = statements.flatMap (fun s => findAssignmentsTo s moduleExportsMember) ++
        statements.flatMap (fun s => findAssignmentsTo s exportsMember) := by
  unfold findModuleExports
  rw [findAssignmentsTo_statements statements _ hs, findAssignmentsTo_statements statements _ hs]

theorem findModuleExports_two (first second third : List Val) (l₁ r₁ l₂ r₂ : Val)
    (hs : ∀ s ∈ first ++ second ++ third, isObject s = true)
    (h₁ : ExportTarget l₁) (h₂ : ExportTarget l₂) :
    2 ≤ (findModuleExports (arr (first ++ assignmentStatement l₁ r₁ ::
      (second ++ assignmentStatement l₂ r₂ :: third)))).length := by
  rw [findModuleExports_statements]
  · have e₁ := findAssignmentsTo_exportTarget l₁ r₁ h₁
    have e₂ := findAssignmentsTo_exportTarget l₂ r₂ h₂
    simp only [List.flatMap_append, List.flatMap_cons, List.length_append]
    omega
  · intro s h
    simp only [List.mem_append, List.mem_cons] at h hs
    rcases h with h | rfl | h | rfl | h
    · exact hs s (Or.inl (Or.inl h))
    · rfl
    · exact hs s (Or.inl (Or.inr h))
    · rfl
    · exact hs s (Or.inr h)

/-- C16, as stated, fails.  The module `module.exports.exports = function () {}`
holds one export assignment, with a function on its right, yet two exports are
found (the assignment matches both patterns) and `findExportedFunction` fails;
the module `module.exports = function () { exports.x = 1 }` holds two export
assignments, yet one export is found (the inner assignment sits inside the
matched one) and the body of the function is returned. -/
theorem findExportedFunction_counterexample :
    (findModuleExports moduleExportsExports).length = 2 ∧
    findExportedFunction moduleExportsExports "lib/routes/a.js"
      = (fail "Expected 1 export, found 2" "lib/routes/a.js" undef : Throws Val) ∧
    (findModuleExports moduleNestedExport).length = 1 ∧
    findExportedFunction moduleNestedExport "lib/routes/a.js"
      = .ok (blockStatement [expressionStatement
          (assignmentExpression (memberExpression (identifier "exports") (identifier "x"))
            (literal (num 1)))]) :=
  ⟨rfl, rfl, rfl, rfl⟩

/-- C16, amended.  `findExportedFunction` fails, with the message `Expected 1
export, found n`, when the number `n` of assignments that `findModuleExports`
finds is not one; it fails when the right-hand side of the only assignment
found is not a function or arrow-function expression; and it returns the body
of that function when it is one.  In a module, a list of statements,
`findModuleExports` finds what a search for assignments to a member of
`module.exports` finds in each statement, followed by what a search for
assignments to a member of `exports` finds in each statement.  When nothing is
found in the statements, no export is found and the function fails.  In a
module that holds the statement `left = right` among statements in which
nothing is found:
* for `left` being `module.exports` or `exports.X`, the second search finds the
  assignment and nothing inside it, the first search finds what it finds in
  `right` (which is not itself a member of `module.exports`); when it finds
  nothing there, the body of `right` is returned if `right` is a function, and
  the function fails if it is not;
* for `left` being `module.exports.X`, `X` not being `exports`, the first
  search finds the assignment and nothing inside it, the second search finds
  what it finds in `right` (which is not itself a member of `exports`), with
  the same outcome;
* for `left` being `module.exports.exports` both searches find the assignment,
  two exports are found and the function fails.
In a module that holds two export assignment statements, at least two exports
are found and the function fails. -/
theorem findExportedFunction_found (node : Val) (filePath : String) :
    ((findModuleExports node).length ≠ 1 →
      findExportedFunction node filePath
        = fail ("Expected 1 export, found " ++ toString (findModuleExports node).length)
            filePath undef) ∧
    (∀ exported fn, findModuleExports node = [exported] →
      getProp exported "right" = some fn → ¬ IsFunctionValued fn →
      ∃ e, findExportedFunction node filePath = .error e) ∧
    (∀ exported fn body, findModuleExports node = [exported] →
      getProp exported "right" = some fn → IsFunctionValued fn →
      getProp fn "body" = some body →
      findExportedFunction node filePath = .ok body) ∧
    (∀ statements : List Val, (∀ s ∈ statements, isObject s = true) →
      findModuleExports (arr statements)
        = statements.flatMap (fun s => findAssignmentsTo s moduleExportsMember) ++
          statements.flatMap (fun s => findAssignmentsTo s exportsMember)) ∧
    (∀ statements : List Val, NoExports statements →
      findModuleExports (arr statements) = [] ∧
      findExportedFunction (arr statements) filePath
        = fail "Expected 1 export, found 0" filePath undef) ∧
    (∀ (before after : List Val) (left right : Val) (X : String),
      NoExports (before ++ after) → (left = moduleDotExports ∨ left = exportsDot X) →
      match_ right moduleExportsMember = false →
      findModuleExports (arr (before ++ assignmentStatement left right :: after))
        = findAssignmentsTo right moduleExportsMember ++ [assignmentExpression left right] ∧
      (findAssignmentsTo right moduleExportsMember = [] →
        (∀ body, IsFunctionValued right → getProp right "body" = some body →
          findExportedFunction (arr (before ++ assignmentStatement left right :: after))
            filePath = .ok body) ∧
        (¬ IsFunctionValued right →
          ∃ e, findExportedFunction (arr (before ++ assignmentStatement left right :: after))
            filePath = .error e))) ∧
    (∀ (before after : List Val) (right : Val) (X : String),
      NoExports (before ++ after) → X ≠ "exports" →
      match_ right exportsMember = false →
      findModuleExports (arr (before ++ assignmentStatement (moduleExportsDot X) right :: after))
        = assignmentExpression (moduleExportsDot X) right ::
            findAssignmentsTo right exportsMember ∧
      (findAssignmentsTo right exportsMember = [] →
        (∀ body, IsFunctionValued right → getProp right "body" = some body →
          findExportedFunction
              (arr (before ++ assignmentStatement (moduleExportsDot X) right :: after)) filePath
            = .ok body) ∧
        (¬ IsFunctionValued right →
          ∃ e, findExportedFunction
              (arr (before ++ assignmentStatement (moduleExportsDot X) right :: after)) filePath
            = .error e))) ∧
    (∀ (before after : List Val) (right : Val), NoExports (before ++ after) →
      findModuleExports
          (arr (before ++ assignmentStatement (moduleExportsDot "exports") right :: after))
        = [assignmentExpression (moduleExportsDot "exports") right,
            assignmentExpression (moduleExportsDot "exports") right] ∧
      findExportedFunction
          (arr (before ++ assignmentStatement (moduleExportsDot "exports") right :: after))
          filePath
        = fail "Expected 1 export, found 2" filePath undef) ∧
    (∀ (first second third : List Val) (l₁ r₁ l₂ r₂ : Val),
      (∀ s ∈ first ++ second ++ third, isObject s = true) →
      ExportTarget l₁ → ExportTarget l₂ →
      2 ≤ (findModuleExports (arr (first ++ assignmentStatement l₁ r₁ ::
        (second ++ assignmentStatement l₂ r₂ :: third)))).length ∧
      ∃ e, findExportedFunction (arr (first ++ assignmentStatement l₁ r₁ ::
        (second ++ assignmentStatement l₂ r₂ :: third))) filePath = .error e) := by
  refine ⟨findExportedFunction_of_length node filePath,
    fun exported fn hl hr hf =>
      findExportedFunction_of_not_function node filePath exported fn hl hr hf,
    fun exported fn body hl hr hf hb =>
      findExportedFunction_of_sole node filePath exported fn body hl hr hf hb,
    findModuleExports_statements, ?_, ?_, ?_, ?_, ?_⟩
  · intro statements hs
    have h : findModuleExports (arr statements) = [] := by
      unfold findModuleExports
      rw [findAssignmentsTo_statements statements _ (fun s h => (hs s h).1),
        findAssignmentsTo_statements statements _ (fun s h => (hs s h).1),
        flatMap_eq_nil (fun s h => (hs s h).2.1), flatMap_eq_nil (fun s h => (hs s h).2.2)]
      rfl
    refine ⟨h, ?_⟩
    rw [findExportedFunction_of_length _ _ (by rw [h]; decide), h]
    rfl
  · intro before after left right X hno hleft hright
    have h : findModuleExports (arr (before ++ assignmentStatement left right :: after))
        = findAssignmentsTo right moduleExportsMember ++ [assignmentExpression left right] := by
      unfold findModuleExports
      rw [findAssignmentsTo_among before after left right moduleExportsMember rfl
          (fun s h => ⟨(hno s h).1, (hno s h).2.1⟩),
        findAssignmentsTo_among before after left right exportsMember rfl
          (fun s h => ⟨(hno s h).1, (hno s h).2.2⟩)]
      rcases hleft with rfl | rfl
      · have h₁ : match_ moduleDotExports moduleExportsMember = false := rfl
        have h₂ : match_ moduleDotExports exportsMember = true := rfl
        rw [h₁, h₂, hright, findAssignmentsTo_moduleDotExports]
        rfl
      · have h₂ : match_ (exportsDot X) exportsMember = true := rfl
        rw [match_exportsDot_moduleExportsMember, h₂, hright, findAssignmentsTo_exportsDot]
        rfl
    refine ⟨h, ?_⟩
    intro hnested
    rw [hnested] at h
    exact ⟨fun body hf hb => findExportedFunction_of_sole _ filePath _ right body h rfl hf hb,
      fun hf => findExportedFunction_of_not_function _ filePath _ right h rfl hf⟩
  · intro before after right X hno hX hright
    have h : findModuleExports
        (arr (before ++ assignmentStatement (moduleExportsDot X) right :: after))
        = assignmentExpression (moduleExportsDot X) right ::
            findAssignmentsTo right exportsMember := by
      unfold findModuleExports
      rw [findAssignmentsTo_among before after _ right moduleExportsMember rfl
          (fun s h => ⟨(hno s h).1, (hno s h).2.1⟩),
        findAssignmentsTo_among before after _ right exportsMember rfl
          (fun s h => ⟨(hno s h).1, (hno s h).2.2⟩)]
      have h₁ : match_ (moduleExportsDot X) moduleExportsMember = true := rfl
      rw [h₁, match_moduleExportsDot_exportsMember X hX, hright,
        findAssignmentsTo_moduleExportsDot X exportsMember]
      rfl
    refine ⟨h, ?_⟩
    intro hnested
    rw [hnested] at h
    exact ⟨fun body hf hb => findExportedFunction_of_sole _ filePath _ right body h rfl hf hb,
      fun hf => findExportedFunction_of_not_function _ filePath _ right h rfl hf⟩
  · intro before after right hno
    have h : findModuleExports
        (arr (before ++ assignmentStatement (moduleExportsDot "exports") right :: after))
        = [assignmentExpression (moduleExportsDot "exports") right,
            assignmentExpression (moduleExportsDot "exports") right] := by
      unfold findModuleExports
      rw [findAssignmentsTo_among before after _ right moduleExportsMember rfl
          (fun s h => ⟨(hno s h).1, (hno s h).2.1⟩),
        findAssignmentsTo_among before after _ right exportsMember rfl
          (fun s h => ⟨(hno s h).1, (hno s h).2.2⟩)]
      have h₁ : match_ (moduleExportsDot "exports") moduleExportsMember = true := rfl
      have h₂ : match_ (moduleExportsDot "exports") exportsMember = true := rfl
      rw [h₁, h₂]
      rfl
    refine ⟨h, ?_⟩
    have hlen : (findModuleExports
        (arr (before ++ assignmentStatement (moduleExportsDot "exports") right :: after))).length
        = 2 := by rw [h]; rfl
    rw [findExportedFunction_of_length _ _ (by rw [hlen]; decide), hlen]
    rfl
  · intro first second third l₁ r₁ l₂ r₂ hs h₁ h₂
    have h := findModuleExports_two first second third l₁ r₁ l₂ r₂ hs h₁ h₂
    refine ⟨h, _, findExportedFunction_of_length _ filePath (by omega)⟩

/-- C16, amended, at the module `const isA = require('joi'); module.exports =
function (log) { exports.x = 1; return [] }; f()`, whose function body is
returned; at the module `module.exports.routes = (log) => []`, whose function
body is returned; at the module `exports.a = function () {}; exports.b =
function () {}`, for which the function fails; and at the module without
statements, for which no export is found. -/
theorem findExportedFunction_found_witness :
    findExportedFunction moduleAmongStatements "lib/routes/a.js"
      = .ok (blockStatement [assignmentStatement (exportsDot "x") (literal (num 1)),
          returnStatement (arrayExpression [])]) ∧
    findExportedFunction moduleExportsRoutes "lib/routes/a.js" = .ok (arrayExpression []) ∧
    (∃ e, findExportedFunction moduleTwoExports "lib/routes/a.js" = .error e) ∧
    findExportedFunction moduleEmpty "lib/routes/a.js"
      = (fail "Expected 1 export, found 0" "lib/routes/a.js" undef : Throws Val) :=
  ⟨(((findExportedFunction_found moduleEmpty "lib/routes/a.js").2.2.2.2.2.1
      [variableDeclaration [variableDeclarator (identifier "isA")
        (callExpression (identifier "require") [literal (str "joi")])]]
      [expressionStatement (callExpression (identifier "f") [])]
      moduleDotExports
      (functionExpression [identifier "log"]
        (blockStatement [assignmentStatement (exportsDot "x") (literal (num 1)),
          returnStatement (arrayExpression [])]))
      "x"
      (by
        intro s hs
        simp only [List.cons_append, List.nil_append, List.mem_cons, List.mem_singleton,
          List.not_mem_nil, or_false] at hs
        rcases hs with rfl | rfl <;> exact ⟨rfl, rfl, rfl⟩)
      (Or.inl rfl) rfl).2 rfl).1 _ ⟨"FunctionExpression", by decide, rfl⟩ rfl,
   (((findExportedFunction_found moduleEmpty "lib/routes/a.js").2.2.2.2.2.2.1
      [] [] (arrowFunctionExpression [identifier "log"] (arrayExpression [])) "routes"
      (by intro s hs; cases hs) (by decide) rfl).2 rfl).1 _
      ⟨"ArrowFunctionExpression", by decide, rfl⟩ rfl,
   ((findExportedFunction_found moduleEmpty "lib/routes/a.js").2.2.2.2.2.2.2.2
      [] [] [] (exportsDot "a") (functionExpression [] (blockStatement []))
      (exportsDot "b") (functionExpression [] (blockStatement []))
      (by intro s hs; cases hs) (Or.inr ⟨"a", Or.inr rfl⟩) (Or.inr ⟨"b", Or.inr rfl⟩)).2,
   (findExportedFunction_found moduleEmpty "lib/routes/a.js").1 (by decide)⟩

/-! ## `findReturnedData` -/

theorem findReturnedData_else (functionNode t : Val) (filePath : String)
    (ht : getProp functionNode "type" = some t) (hb : t ≠ str "BlockStatement") :
    findReturnedData functionNode filePath
      = fail "Expected type [ReturnStatement], found nothing" filePath undef := by
  have he : strictEq t (str "BlockStatement") = false := by
    cases h : strictEq t (str "BlockStatement")
    · rfl
    · exact absurd ((strictEq_iff _ _).1 h) hb
  unfold findReturnedData
  simp only [ht, liftThrow, bind, Except.bind, he, Bool.false_eq_true, if_false]
  rfl

/-- C21: for a function body that is not a `BlockStatement`, whatever it is,
`findReturnedData` fails with the error of `fail` for the message `Expected type
[ReturnStatement], found nothing` (after the words `Error parsing` and the file
path, when there is one), because `assertType` receives the unassigned
`returnedData`; it returns no route definitions, and neither does `findRoutes`
for a module whose exported function has such a body. -/
theorem findReturnedData_expression_body (functionNode t : Val) (filePath : String)
    (ht : getProp functionNode "type" = some t) (hb : t ≠ str "BlockStatement") :
    findReturnedData functionNode filePath
      = .error (.failure
          (failMessage "Expected type [ReturnStatement], found nothing" filePath undef)) ∧
    (filePath ≠ "" →
      failMessage "Expected type [ReturnStatement], found nothing" filePath undef
        = "Error parsing \"" ++ filePath ++ "\"" ++ ":\n" ++
            "Expected type [ReturnStatement], found nothing") ∧
    (∀ routes, findReturnedData functionNode filePath ≠ .ok routes) ∧
    (∀ node, findExportedFunction node filePath = .ok functionNode →
      ∀ routes, findRoutes node filePath ≠ .ok routes) := by
  have key := findReturnedData_else functionNode t filePath ht hb
  refine ⟨key, ?_, ?_, ?_⟩
  · intro hf
    simp [failMessage, hf, truthy]
  · intro routes h
    rw [key] at h
    cases h
  · intro node hn routes h
    unfold findRoutes at h
    cases hp : parseVariables node with
    | none =>
      rw [hp] at h
      cases h
    | some env =>
      rw [hp] at h
      simp only [liftThrow, bind, Except.bind, hn, key] at h
      cases h

/-- C21 at the module `module.exports = log => []`, whose exported function has
the array `[]` as its body; a body that is a block with the statement `return
[]` yields the elements of the array. -/
theorem findReturnedData_expression_body_witness :
    findExportedFunction moduleArrowExport "lib/routes/a.js" = .ok (arrayExpression []) ∧
    findReturnedData (arrayExpression []) "lib/routes/a.js"
      = .error (.failure
          "Error parsing \"lib/routes/a.js\":\nExpected type [ReturnStatement], found nothing") ∧
    (∀ routes, findRoutes moduleArrowExport "lib/routes/a.js" ≠ .ok routes) ∧
    findReturnedData (blockStatement [returnStatement (arrayExpression [identifier "r"])])
      "lib/routes/a.js" = .ok (arr [identifier "r"]) :=
  ⟨rfl,
   (findReturnedData_expression_body (arrayExpression []) (str "ArrayExpression")
      "lib/routes/a.js" rfl (fun h => absurd (Val.str.inj h) (by decide))).1.trans rfl,
   (findReturnedData_expression_body (arrayExpression []) (str "ArrayExpression")
      "lib/routes/a.js" rfl (fun h => absurd (Val.str.inj h) (by decide))).2.2.2
      moduleArrowExport rfl,
   rfl⟩

end WriteApiDocs
